import Mathlib

/-!
goFractal: partitioning, escape-time evaluation and rendering.

A shallow embedding of `goFractal.go` and of the parts of Go's `image` package
the program calls (`image.Rect`, `Rectangle.Intersect`, `Paletted.SubImage`,
`Paletted.SetColorIndex`, ...), followed by theorems about them.

Conventions of the embedding.

* Go's `int` is modelled by `Int`.  For an image that `image.NewPaletted` can
  allocate, every integer this program computes (widths, column positions,
  pixel offsets, pixel counts) stays below `2^63`, so no wrap-around occurs.
* A run-time panic is an `Except.error`.
* A byte slice is a window `(off, len)` on a backing array; the backing array
  is a function from cell numbers to byte values.  Sub-images made by
  `SubImage` share the backing array of their parent, as in Go.
* `float64` arithmetic is an interface (`Arith`); the instance `exactArith`
  reads it over the rationals, i.e. exactly.
* A channel is the finite sequence of values its worker sends, followed by
  closure; the coordinator loop of `main` receives from these sequences.
-/

namespace GoFractal

/-! ## The `image` package: points and rectangles -/

/-- Go's `image.Point`. -/
structure Point where
  X : Int
  Y : Int
deriving DecidableEq, Repr

/-- Go's `image.Rectangle`: the points with `Min.X ≤ X < Max.X` and
`Min.Y ≤ Y < Max.Y`. -/
structure Rectangle where
  Min : Point
  Max : Point
deriving DecidableEq, Repr

/-- Go's `image.ZR`, the zero rectangle. -/
def ZR : Rectangle := ⟨⟨0, 0⟩, ⟨0, 0⟩⟩

/-- Go's `Rectangle.Dx`: the width. -/
def Rectangle.Dx (r : Rectangle) : Int := r.Max.X - r.Min.X

/-- Go's `Rectangle.Dy`: the height. -/
def Rectangle.Dy (r : Rectangle) : Int := r.Max.Y - r.Min.Y

/-- Go's `Rectangle.Empty`: `r.Min.X >= r.Max.X || r.Min.Y >= r.Max.Y`. -/
def Rectangle.Empty (r : Rectangle) : Prop :=
  r.Min.X ≥ r.Max.X ∨ r.Min.Y ≥ r.Max.Y

instance (r : Rectangle) : Decidable r.Empty :=
  inferInstanceAs (Decidable (r.Min.X ≥ r.Max.X ∨ r.Min.Y ≥ r.Max.Y))

/-- Go's `Point.In`:
`r.Min.X <= p.X && p.X < r.Max.X && r.Min.Y <= p.Y && p.Y < r.Max.Y`. -/
def Point.In (p : Point) (r : Rectangle) : Prop :=
  r.Min.X ≤ p.X ∧ p.X < r.Max.X ∧ r.Min.Y ≤ p.Y ∧ p.Y < r.Max.Y

instance (p : Point) (r : Rectangle) : Decidable (p.In r) :=
  inferInstanceAs
    (Decidable (r.Min.X ≤ p.X ∧ p.X < r.Max.X ∧ r.Min.Y ≤ p.Y ∧ p.Y < r.Max.Y))

/-- Go's `image.Rect(x0, y0, x1, y1)`: the rectangle with those corners, the
coordinates swapped where needed so that `Min ≤ Max`. -/
def Rect (x0 y0 x1 y1 : Int) : Rectangle :=
  let (x0, x1) := if x0 > x1 then (x1, x0) else (x0, x1)
  let (y0, y1) := if y0 > y1 then (y1, y0) else (y0, y1)
  ⟨⟨x0, y0⟩, ⟨x1, y1⟩⟩

/-- Go's `Rectangle.Intersect`: the largest rectangle inside both, and `ZR`
when that is empty. -/
def Rectangle.Intersect (r s : Rectangle) : Rectangle :=
  let minX := if r.Min.X < s.Min.X then s.Min.X else r.Min.X
  let minY := if r.Min.Y < s.Min.Y then s.Min.Y else r.Min.Y
  let maxX := if r.Max.X > s.Max.X then s.Max.X else r.Max.X
  let maxY := if r.Max.Y > s.Max.Y then s.Max.Y else r.Max.Y
  let r : Rectangle := ⟨⟨minX, minY⟩, ⟨maxX, maxY⟩⟩
  if r.Empty then ZR else r

/-! ## The `image` package: paletted images over a shared pixel array -/

/-- The run-time panics the modelled code can raise. -/
inductive Panic where
  /-- `make([]T, n)` with a negative length. -/
  | makeslice
  /-- A slice expression `s[i:]` with `i` outside `0..len(s)`. -/
  | sliceBounds
  /-- An index expression `s[i]` with `i` outside `0..len(s)-1`. -/
  | indexOutOfRange
  /-- The `image.NewPaletted` panic for a rectangle of negative width or height. -/
  | hugeOrNegative
deriving DecidableEq, Repr

/-- A byte slice: `len` cells of the backing array, starting at cell `off`. -/
structure Slice where
  off : Nat
  len : Nat
deriving DecidableEq, Repr

/-- The slice expression `s[i:]`. -/
def Slice.sliceFrom (s : Slice) (i : Int) : Except Panic Slice :=
  if 0 ≤ i ∧ i ≤ s.len then .ok ⟨s.off + i.toNat, s.len - i.toNat⟩
  else .error .sliceBounds

/-- The backing array of pixel bytes (colour indices, `uint8`). -/
abbrev Mem := Nat → Nat

/-- Go's `image.Paletted` without its palette: the pixel slice, the stride
between rows and the bounds. -/
structure Paletted where
  Pix : Slice
  Stride : Int
  Rect : Rectangle
deriving DecidableEq, Repr

/-- Go's `image.NewPaletted`: a fresh image of bounds `r`, its pixels in cells
`0 .. Dx*Dy - 1`, rows of `Dx` cells. -/
def NewPaletted (r : Rectangle) : Except Panic Paletted :=
  if r.Dx < 0 ∨ r.Dy < 0 then .error .hugeOrNegative
  else .ok { Pix := ⟨0, (r.Dx * r.Dy).toNat⟩, Stride := r.Dx, Rect := r }

/-- Go's `Paletted.PixOffset`:
`(y-p.Rect.Min.Y)*p.Stride + (x-p.Rect.Min.X)*1`. -/
def Paletted.PixOffset (p : Paletted) (x y : Int) : Int :=
  (y - p.Rect.Min.Y) * p.Stride + (x - p.Rect.Min.X) * 1

/-- Go's `Paletted.SubImage`: the part of `p` inside `r`, sharing the pixels of
`p`; the empty image with zero bounds when `r` does not meet `p`. -/
def Paletted.SubImage (p : Paletted) (r : Rectangle) : Except Panic Paletted :=
  let r := r.Intersect p.Rect
  if r.Empty then .ok { Pix := ⟨0, 0⟩, Stride := 0, Rect := ZR }
  else
    let i := p.PixOffset r.Min.X r.Min.Y
    match p.Pix.sliceFrom i with
    | .error e => .error e
    | .ok pix => .ok { Pix := pix, Stride := p.Stride, Rect := p.Rect.Intersect r }

/-- Go's `Paletted.SetColorIndex`: nothing outside the bounds, else
`p.Pix[p.PixOffset(x, y)] = index`. -/
def Paletted.SetColorIndex (p : Paletted) (x y : Int) (index : Nat) (mem : Mem) :
    Except Panic Mem :=
  if ¬ (Point.mk x y).In p.Rect then .ok mem
  else
    let i := p.PixOffset x y
    if 0 ≤ i ∧ i < p.Pix.len then .ok (Function.update mem (p.Pix.off + i.toNat) index)
    else .error .indexOutOfRange

/-- Go's `Paletted.ColorIndexAt`: `0` outside the bounds, else
`p.Pix[p.PixOffset(x, y)]`. -/
def Paletted.ColorIndexAt (p : Paletted) (x y : Int) (mem : Mem) : Except Panic Nat :=
  if ¬ (Point.mk x y).In p.Rect then .ok 0
  else
    let i := p.PixOffset x y
    if 0 ≤ i ∧ i < p.Pix.len then .ok (mem (p.Pix.off + i.toNat))
    else .error .indexOutOfRange

/-- The invariant of an image made by `NewPaletted` and of its sub-images: a
row fits in the stride and the last pixel lies inside the pixel slice. -/
def Paletted.WF (p : Paletted) : Prop :=
  p.Rect.Empty ∨
    (p.Rect.Dx ≤ p.Stride ∧ (p.Rect.Dy - 1) * p.Stride + p.Rect.Dx ≤ p.Pix.len)

instance (p : Paletted) : Decidable p.WF :=
  inferInstanceAs (Decidable (p.Rect.Empty ∨
    (p.Rect.Dx ≤ p.Stride ∧ (p.Rect.Dy - 1) * p.Stride + p.Rect.Dx ≤ p.Pix.len)))

/-! ## Loops -/

/-- The loop `for i := lo; ...; i++ { body }` run for `k` rounds from `i`,
stopping at the first panic. -/
def forLoop {σ : Type} (body : Int → σ → Except Panic σ) : Nat → Int → σ → Except Panic σ
  | 0, _, s => .ok s
  | k + 1, i, s =>
    match body i s with
    | .ok s' => forLoop body k (i + 1) s'
    | .error e => .error e

/-- The loop `for i := lo; i < hi; i++ { body }`, whose body leaves `i` alone:
it makes `hi - lo` rounds (none when `hi ≤ lo`). -/
def forRange {σ : Type} (lo hi : Int) (body : Int → σ → Except Panic σ) (s : σ) :
    Except Panic σ :=
  forLoop body (hi - lo).toNat lo s

/-! ## `SplitImage` -/

/-- The rectangle `SplitImage` builds for strip `i` in its loop body, from the
image bounds and the number of strips.

`h_step := int(float64(bounds.Dx()) / float64(n))` is the quotient truncated
towards zero: both conversions are exact below `2^53`, and a correctly rounded
quotient of two such integers never crosses an integer. -/
def stripRect (bounds : Rectangle) (n i : Int) : Rectangle :=
  let h_step := Int.tdiv bounds.Dx n
  let offset := bounds.Dx - n * h_step
  let x0 := bounds.Min.X + i * h_step
  let x1 := bounds.Min.X + (i + 1) * h_step
  let x1 := if i = n - 1 then x1 + offset else x1
  Rect x0 bounds.Min.Y x1 bounds.Max.Y

/-- The source's `SplitImage`: `n` vertical strips of `img`, left to right.
`make([]image.Image, n)` panics for a negative `n`; `strips[i]` is assigned for
`i = 0, 1, ..., n-1` in this order, so the slice is built by appending. -/
def SplitImage (img : Paletted) (n : Int) : Except Panic (List Paletted) :=
  if n < 0 then .error .makeslice
  else
    forRange 0 n
      (fun i strips =>
        match img.SubImage (stripRect img.Rect n i) with
        | .ok sub => .ok (strips ++ [sub])
        | .error e => .error e)
      []


/-! ## `Render` -/

/-- The state of one run of `Render`: the pixel array, the counter
`num_of_pix`, the values sent on the channel so far (oldest first), the
coordinates whose pixel has been stored so far (oldest first), and whether the
channel has been closed. -/
structure RenderState where
  mem : Mem
  num_of_pix : Int
  sent : List Int
  writes : List Point
  closed : Bool

/-- The body of the inner loop of `Render` at pixel `(x, y)`:
`img.SetColorIndex(x, y, fractal.At(x,y))`, `num_of_pix += 1`,
`channel <- num_of_pix`.  The store is logged in `writes` when
`SetColorIndex` does store, that is when `(x, y)` is inside the bounds. -/
def renderPixel (img : Paletted) (fractal : Int → Int → Nat) (x y : Int) (s : RenderState) :
    Except Panic RenderState :=
  match img.SetColorIndex x y (fractal x y) s.mem with
  | .error e => .error e
  | .ok mem =>
    let num_of_pix := s.num_of_pix + 1
    .ok { mem := mem
          num_of_pix := num_of_pix
          sent := s.sent ++ [num_of_pix]
          writes := if (Point.mk x y).In img.Rect then s.writes ++ [⟨x, y⟩] else s.writes
          closed := s.closed }

/-- The source's `Render`, run to its end against a receiver that takes every
value: columns left to right, in each column the rows top to bottom, then
`close(channel)`.  `fractal x y` is `fractal.At(x, y)`, a `uint8`. -/
def Render (img : Paletted) (fractal : Int → Int → Nat) (mem : Mem) : Except Panic RenderState :=
  match forRange img.Rect.Min.X img.Rect.Max.X
      (fun x s => forRange img.Rect.Min.Y img.Rect.Max.Y (fun y s => renderPixel img fractal x y s) s)
      { mem := mem, num_of_pix := 0, sent := [], writes := [], closed := false } with
  | .error e => .error e
  | .ok s => .ok { s with closed := true }

/-! ## `Mandelbrot.At` -/

/-- The `float64` operations `Mandelbrot.At` uses, as an interface, so that
what does not depend on rounding is proved for every arithmetic. -/
structure Arith (F : Type) where
  /-- The conversion `float64(i)` of an `int`. -/
  ofInt : Int → F
  /-- The constant `0` of `complex(0, 0)`. -/
  zero : F
  add : F → F → F
  sub : F → F → F
  mul : F → F → F
  div : F → F → F
  /-- The test `cmplx.Abs(complex(re, im)) < b`. -/
  absLt : F → F → F → Bool

/-- The arithmetic read exactly, over the rationals (every `float64` input is
a rational).  `cmplx.Abs(z) < b`, that is `sqrt(re² + im²) < b`, is
`0 < b ∧ re² + im² < b²` (see `exactArith_absLt`).  A division by zero, which
`float64` answers with an infinity or a NaN and which has no real value, gets
Lean's value `0`: theorems that depend on a quotient assume its divisor is not
zero. -/
def exactArith : Arith ℚ where
  ofInt := fun i => (i : ℚ)
  zero := 0
  add := fun a b => a + b
  sub := fun a b => a - b
  mul := fun a b => a * b
  div := fun a b => a / b
  absLt := fun re im b => decide (0 < b ∧ re * re + im * im < b * b)

/-- The source's `Pt_f64`. -/
structure Pt_f64 (F : Type) where
  X : F
  Y : F

/-- The source's `Mandelbrot`. -/
structure Mandelbrot (F : Type) where
  Start : Pt_f64 F
  End : Pt_f64 F
  ImageSize : Rectangle
  Bailout : F
  MaxIterations : Int

/-- The complex constant `c = complex(x0, y0)` that `Mandelbrot.At` computes
for the pixel `(X, Y)`, as the pair of its real and imaginary part. -/
def Mandelbrot.constant {F : Type} (A : Arith F) (m : Mandelbrot F) (X Y : Int) : F × F :=
  let x0 := A.div (A.ofInt (X - m.ImageSize.Min.X))
    (A.ofInt (m.ImageSize.Max.X - m.ImageSize.Min.X))
  let x0 := A.add (A.mul x0 (A.sub m.End.X m.Start.X)) m.Start.X
  let y0 := A.div (A.ofInt (Y - m.ImageSize.Min.Y))
    (A.ofInt (m.ImageSize.Max.Y - m.ImageSize.Min.Y))
  let y0 := A.add (A.mul y0 (A.sub m.End.Y m.Start.Y)) m.Start.Y
  (x0, y0)

/-- The assignment `z = z*z + c` on `complex128`, on real and imaginary parts:
`(a+bi)(a+bi) = (a*a - b*b) + (a*b + b*a)i`. -/
def Arith.step {F : Type} (A : Arith F) (c z : F × F) : F × F :=
  (A.add (A.sub (A.mul z.1 z.1) (A.mul z.2 z.2)) c.1,
   A.add (A.add (A.mul z.1 z.2) (A.mul z.2 z.1)) c.2)

/-- The loop
`for ; cmplx.Abs(z) < m.Bailout && itr < m.MaxIterations; itr++ { z = z*z + c }`
with at most `fuel` rounds left; its value is the final `itr`. -/
def Mandelbrot.loop {F : Type} (A : Arith F) (m : Mandelbrot F) (c : F × F) :
    Nat → F × F → Int → Int
  | 0, _, itr => itr
  | fuel + 1, z, itr =>
    if A.absLt z.1 z.2 m.Bailout && decide (itr < m.MaxIterations) then
      Mandelbrot.loop A m c fuel (A.step c z) (itr + 1)
    else itr

/-- The conversion `uint8(itr)` of an `int`: the low 8 bits. -/
def uint8 (itr : Int) : Nat := (itr % 256).toNat

/-- The source's `Mandelbrot.At`.  The loop starts at `itr = 0` and stops at the
latest when `itr = MaxIterations`, so `MaxIterations` rounds of fuel are
enough (`loop_fuel`). -/
def Mandelbrot.At {F : Type} (A : Arith F) (m : Mandelbrot F) (X Y : Int) : Nat :=
  let c := m.constant A X Y
  let z : F × F := (A.zero, A.zero)
  uint8 (m.loop A c m.MaxIterations.toNat z 0)

/-! ## The claims' own notions -/

/-- The orbit of the claims: `z_0 = 0` and `z_{k+1} = z_k² + c`, over the
rationals, a complex number being the pair of its parts. -/
def orbit (c : ℚ × ℚ) : Nat → ℚ × ℚ
  | 0 => (0, 0)
  | k + 1 => ((orbit c k).1 * (orbit c k).1 - (orbit c k).2 * (orbit c k).2 + c.1,
      2 * (orbit c k).1 * (orbit c k).2 + c.2)

/-! ## Notions used in the proofs about `Render` -/

/-- The cell of the pixel array that holds the pixel `pt` of `img`. -/
def Paletted.cell (img : Paletted) (pt : Point) : Nat :=
  img.Pix.off + (img.PixOffset pt.X pt.Y).toNat

/-- The pixels `Render` has stored once it has finished `cx` columns and `ry`
rows of the next column. -/
def rendered (img : Paletted) (cx ry : Nat) (pt : Point) : Prop :=
  pt.In img.Rect ∧
    (pt.X < img.Rect.Min.X + cx ∨ (pt.X = img.Rect.Min.X + cx ∧ pt.Y < img.Rect.Min.Y + ry))

/-- The loop invariant of `Render`, `cx` columns and `ry` rows of the next
column being finished, from the pixel array `mem0`. -/
def RenderInv (img : Paletted) (fractal : Int → Int → Nat) (mem0 : Mem) (cx ry : Nat)
    (s : RenderState) : Prop :=
  s.num_of_pix = (cx * img.Rect.Dy.toNat + ry : Nat) ∧
  s.sent = (List.range (cx * img.Rect.Dy.toNat + ry)).map (fun k : Nat => (k : Int) + 1) ∧
  s.writes.length = cx * img.Rect.Dy.toNat + ry ∧
  s.writes.Nodup ∧
  (∀ pt, pt ∈ s.writes ↔ rendered img cx ry pt) ∧
  (∀ pt, rendered img cx ry pt → s.mem (img.cell pt) = fractal pt.X pt.Y) ∧
  (∀ a, (∀ pt, rendered img cx ry pt → a ≠ img.cell pt) → s.mem a = mem0 a) ∧
  s.closed = false

/-! ## The coordinator loop of `main` -/

/-- A worker's channel as the coordinator sees it: the values the worker still
sends, oldest first, after which the channel is closed.  The channels are
unbuffered and every receive blocks, so what the coordinator receives from a
channel is this sequence, whatever the scheduling. -/
abbrev Chan := List Int

/-- The receive `val, open := <-channels[i]`: the next value and `true`, or
the zero value and `false` once the channel is closed; with the channel
afterwards. -/
def recv : Chan → Int × Bool × Chan
  | [] => (0, false, [])
  | val :: rest => (val, true, rest)

/-- The inner loop `for i := range channels` of one pass of the coordinator,
from the current `pixels_processed` and `done`: the final `pixels_processed`
and `done`, and the channels after the receives. -/
def passLoop : List Chan → Int → Bool → Int × Bool × List Chan
  | [], pixels_processed, done => (pixels_processed, done, [])
  | ch :: rest, pixels_processed, done =>
    match recv ch with
    | (val, true, ch') =>
      let r := passLoop rest (pixels_processed + val) false
      (r.1, r.2.1, ch' :: r.2.2)
    | (_, false, ch') =>
      let r := passLoop rest pixels_processed done
      (r.1, r.2.1, ch' :: r.2.2)

/-- The loop `for !done` of `main`, with at most `fuel` passes: the arguments
of the calls of `progress_bar`, in order, or `none` when the fuel is used up
before the loop ends. -/
def coordinator : Nat → List Chan → Option (List Int)
  | 0, _ => none
  | fuel + 1, channels =>
    match passLoop channels 0 true with
    | (pixels_processed, true, _) => some [pixels_processed]
    | (pixels_processed, false, channels') =>
      (coordinator fuel channels').map (fun reports => pixels_processed :: reports)

/-- The channels of the workers `main` starts on the strips: worker `i` sends
what `Render` sends on strip `i`.  What `Render` sends does not depend on the
pixel array, so every worker is run from the same array. -/
def workerStreams (fractal : Int → Int → Nat) (mem : Mem) : List Paletted → Except Panic (List Chan)
  | [] => .ok []
  | strip :: rest =>
    match Render strip fractal mem with
    | .error e => .error e
    | .ok s =>
      match workerStreams fractal mem rest with
      | .error e => .error e
      | .ok channels => .ok (s.sent :: channels)

/-- The progress reports of `main` for the image `img` and `cpus` workers: the
strips of `SplitImage`, one worker per strip, and the coordinator loop, with at
most `fuel` passes. -/
def mainReports (img : Paletted) (cpus : Int) (fractal : Int → Int → Nat) (mem : Mem)
    (fuel : Nat) : Except Panic (Option (List Int)) :=
  match SplitImage img cpus with
  | .error e => .error e
  | .ok sub_images =>
    match workerStreams fractal mem sub_images with
    | .error e => .error e
    | .ok channels => .ok (coordinator fuel channels)

/-! ## Notions used in the proofs about the coordinator -/

/-- The length of the longest channel: the number of passes in which some
channel still delivers a value. -/
def maxLen (channels : List Chan) : Nat := (channels.map List.length).foldr max 0

/-- The sum of the values the channels deliver in pass `k + 1`: value number
`k` of every channel that has one. -/
def passSum (channels : List Chan) (k : Nat) : Int :=
  (channels.map (fun ch => ch.getD k 0)).sum

/-- The stream of a worker with `p` pixels: `1, 2, ..., p`. -/
def stream (p : Nat) : Chan := (List.range p).map (fun k : Nat => (k : Int) + 1)

/-! ## The claims' own notions about the coordinator -/

/-- The latest cumulative count received from a channel in the first `k`
passes, in the words of the claims: the last of the first `k` values of the
channel, and 0 before the first. -/
def latest (ch : Chan) (k : Nat) : Int := ((ch.take k).getLast?).getD 0

/-- The aggregate of the claims after `k` passes: the sum over all workers of
the latest cumulative count, a finished worker counting with its final count. -/
def claimedAggregate (channels : List Chan) (k : Nat) : Int :=
  (channels.map (fun ch => latest ch k)).sum

/-! ## The iteration count, the palette and the configuration of `main` -/

/-- The value of `itr` when the loop of `Mandelbrot.At` ends, before the
conversion `uint8(itr)`: the escape-time iteration count. -/
def Mandelbrot.itr {F : Type} (A : Arith F) (m : Mandelbrot F) (X Y : Int) : Int :=
  m.loop A (m.constant A X Y) m.MaxIterations.toNat (A.zero, A.zero) 0

/-- The source's `GenerateColorPalette`: a palette of `levels` colours, colour
`i` being `HSVToRGB(360*n, 0.8, 1.0)` with `n = i / levels`.  The conversion
`HSVToRGB` is a parameter: no claim depends on the colours.
`make([]color.Color, levels)` panics for a negative `levels`. -/
def GenerateColorPalette {C : Type} (HSVToRGB : ℚ → ℚ → ℚ → C) (levels : Int) :
    Except Panic (List C) :=
  if levels < 0 then .error .makeslice
  else .ok ((List.range levels.toNat).map (fun i : Nat =>
    let n : ℚ := (i : ℚ) / (levels : ℚ)
    HSVToRGB (360 * n) (4 / 5) 1))

/-- The bounds of the image `main` makes: `image.Rect(0, 0, int(size),
int(size*0.4459))` with `size = 8096.0`, that is 8096 by 3610
(`8096 * 0.4459 = 3610.0064`). -/
def mainBounds : Rectangle := Rect 0 0 8096 3610

/-- The fractal `main` builds for a palette: the window, `Bailout: 2.0`,
`MaxIterations: len(palette)` and `ImageSize: img.Bounds()`. -/
def mainFractal {C : Type} (palette : List C) : Mandelbrot ℚ where
  Start := ⟨276185 / 1000000, 479000198 / 1000000000⟩
  End := ⟨367588933 / 1000000000, 519762846 / 1000000000⟩
  Bailout := 2
  MaxIterations := palette.length
  ImageSize := mainBounds

/-! # Theorems -/

/-! ## Facts about rectangles -/

theorem in_Intersect (pt : Point) (r s : Rectangle) :
    pt.In (r.Intersect s) ↔ pt.In r ∧ pt.In s := by
  unfold Rectangle.Intersect Point.In Rectangle.Empty ZR
  simp only []
  split_ifs <;> simp only [] <;> omega

theorem in_Rect (pt : Point) (x0 y0 x1 y1 : Int) :
    pt.In (Rect x0 y0 x1 y1) ↔
      min x0 x1 ≤ pt.X ∧ pt.X < max x0 x1 ∧ min y0 y1 ≤ pt.Y ∧ pt.Y < max y0 y1 := by
  unfold Rect Point.In
  simp only []
  split_ifs <;> simp only [] <;> omega

theorem Intersect_of_not_empty (r s : Rectangle) (h : ¬ (r.Intersect s).Empty) :
    r.Intersect s =
      ⟨⟨max r.Min.X s.Min.X, max r.Min.Y s.Min.Y⟩, ⟨min r.Max.X s.Max.X, min r.Max.Y s.Max.Y⟩⟩ := by
  revert h
  unfold Rectangle.Intersect Rectangle.Empty ZR
  simp only []
  split_ifs <;> simp only [Rectangle.mk.injEq, Point.mk.injEq] <;> omega

theorem rect_eq {r s : Rectangle} (h1 : r.Min.X = s.Min.X) (h2 : r.Min.Y = s.Min.Y)
    (h3 : r.Max.X = s.Max.X) (h4 : r.Max.Y = s.Max.Y) : r = s := by
  obtain ⟨⟨a, b⟩, ⟨c, d⟩⟩ := r
  obtain ⟨⟨a', b'⟩, ⟨c', d'⟩⟩ := s
  simp only [] at h1 h2 h3 h4
  subst h1 h2 h3 h4
  rfl

theorem Intersect_of_inside (s t : Rectangle) (ht : ¬ t.Empty)
    (h1 : s.Min.X ≤ t.Min.X) (h2 : s.Min.Y ≤ t.Min.Y)
    (h3 : t.Max.X ≤ s.Max.X) (h4 : t.Max.Y ≤ s.Max.Y) : s.Intersect t = t := by
  obtain ⟨⟨a, b⟩, ⟨c, d⟩⟩ := t
  revert ht
  unfold Rectangle.Intersect Rectangle.Empty ZR
  simp only [] at h1 h2 h3 h4 ⊢
  split_ifs <;> intro hne <;> apply rect_eq <;> dsimp only <;> omega

theorem Intersect_Intersect (r s : Rectangle) (h : ¬ (r.Intersect s).Empty) :
    s.Intersect (r.Intersect s) = r.Intersect s := by
  have h1 := Intersect_of_not_empty r s h
  apply Intersect_of_inside _ _ h <;> rw [h1] <;> simp

theorem Intersect_empty_eq_ZR (r s : Rectangle) (h : (r.Intersect s).Empty) :
    r.Intersect s = ZR := by
  revert h
  unfold Rectangle.Intersect
  simp only []
  split_ifs <;> intro h <;> first | rfl | exact absurd h ‹_›

theorem not_in_of_empty (pt : Point) (r : Rectangle) (h : r.Empty) : ¬ pt.In r := by
  unfold Rectangle.Empty at h; unfold Point.In; omega

theorem not_empty_of_in {pt : Point} {r : Rectangle} (h : pt.In r) : ¬ r.Empty :=
  fun he => not_in_of_empty pt r he h

/-! ## Facts about `SubImage` -/

/-- What `SubImage` returns when it returns. -/
theorem SubImage_spec {p q : Paletted} {r : Rectangle} (h : p.SubImage r = .ok q) :
    q.Rect = r.Intersect p.Rect ∧
      (¬ q.Rect.Empty → q.Stride = p.Stride ∧
        ∃ i : Nat, (i : Int) = p.PixOffset q.Rect.Min.X q.Rect.Min.Y ∧ i ≤ p.Pix.len ∧
          q.Pix = ⟨p.Pix.off + i, p.Pix.len - i⟩) := by
  unfold Paletted.SubImage at h
  simp only [] at h
  split_ifs at h with he
  · injection h with h
    subst h
    refine ⟨(Intersect_empty_eq_ZR _ _ he).symm, fun hne => absurd ?_ hne⟩
    simp [ZR, Rectangle.Empty]
  · unfold Slice.sliceFrom at h
    split_ifs at h with hi
    · simp only [Except.ok.injEq] at h
      subst h
      simp only [Intersect_Intersect _ _ he, true_and]
      intro _
      refine ⟨(p.PixOffset (r.Intersect p.Rect).Min.X (r.Intersect p.Rect).Min.Y).toNat,
        Int.toNat_of_nonneg hi.1, ?_, rfl⟩
      omega

/-- On a well-formed image `SubImage` never panics. -/
theorem SubImage_ok {p : Paletted} (hp : p.WF) (r : Rectangle) : ∃ q, p.SubImage r = .ok q := by
  unfold Paletted.SubImage
  simp only []
  split_ifs with he
  · exact ⟨_, rfl⟩
  · have hr := Intersect_of_not_empty r p.Rect he
    have hne : ¬ p.Rect.Empty := by
      intro hp'
      apply he
      rw [hr]
      unfold Rectangle.Empty at hp' ⊢
      simp only [ge_iff_le, le_min_iff, max_le_iff]
      omega
    rcases hp with hp | ⟨hs, hl⟩
    · exact absurd hp hne
    · have he' := he
      rw [hr] at he'
      unfold Rectangle.Empty at hne he'
      simp only [ge_iff_le, le_min_iff, max_le_iff, not_or, not_and_or, not_le] at he' hne
      unfold Rectangle.Dx at hs hl
      unfold Rectangle.Dy at hl
      have hi : 0 ≤ p.PixOffset (r.Intersect p.Rect).Min.X (r.Intersect p.Rect).Min.Y ∧
          p.PixOffset (r.Intersect p.Rect).Min.X (r.Intersect p.Rect).Min.Y ≤ p.Pix.len := by
        rw [hr]
        unfold Paletted.PixOffset
        simp only [mul_one]
        have hS : 0 ≤ p.Stride := by omega
        have h1 : 0 ≤ max r.Min.Y p.Rect.Min.Y - p.Rect.Min.Y := by
          have := le_max_right r.Min.Y p.Rect.Min.Y; omega
        have h2 : max r.Min.Y p.Rect.Min.Y - p.Rect.Min.Y ≤ p.Rect.Max.Y - p.Rect.Min.Y - 1 := by
          omega
        have h3 : 0 ≤ max r.Min.X p.Rect.Min.X - p.Rect.Min.X := by
          have := le_max_right r.Min.X p.Rect.Min.X; omega
        have h4 : max r.Min.X p.Rect.Min.X < p.Rect.Max.X := by
          omega
        have h5 := mul_nonneg h1 hS
        have h6 := mul_le_mul_of_nonneg_right h2 hS
        constructor <;> omega
      unfold Slice.sliceFrom
      rw [if_pos hi]
      exact ⟨_, rfl⟩

/-- An image made by `NewPaletted` is well-formed. -/
theorem NewPaletted_WF {r : Rectangle} {p : Paletted} (h : NewPaletted r = .ok p) : p.WF := by
  unfold NewPaletted at h
  split_ifs at h with hneg
  simp only [Except.ok.injEq] at h
  subst h
  right
  dsimp only
  have h0 : 0 ≤ r.Dx * r.Dy := mul_nonneg (by omega) (by omega)
  have e : (r.Dy - 1) * r.Dx + r.Dx = r.Dx * r.Dy := by ring
  constructor
  · exact le_refl _
  · rw [e]
    omega

/-! ## Facts about the loops -/

/-- A loop whose body appends the value of `g i` to the state collects the
values of `g` over the range, as long as `g` does not panic there. -/
theorem forLoop_collect {α : Type} (g : Int → Except Panic α)
    (body : Int → List α → Except Panic (List α))
    (hbody : ∀ i s, body i s = (g i).map (fun v => s ++ [v])) :
    ∀ (k : Nat) (i0 : Int) (acc : List α),
      (∀ j : Nat, j < k → ∃ v, g (i0 + j) = .ok v) →
      ∃ out : List α,
        forLoop body k i0 acc = .ok (acc ++ out) ∧
        out.length = k ∧ ∀ (j : Nat) (hj : j < out.length), g (i0 + j) = .ok out[j] := by
  intro k
  induction k with
  | zero =>
    intro i0 acc _
    exact ⟨[], by simp [forLoop], rfl, fun j hj => absurd hj (by simp)⟩
  | succ k ih =>
    intro i0 acc hg
    obtain ⟨v, hv⟩ := hg 0 (Nat.succ_pos k)
    simp only [Nat.cast_zero, add_zero] at hv
    have hg' : ∀ j : Nat, j < k → ∃ w, g (i0 + 1 + j) = .ok w := by
      intro j hj
      have := hg (j + 1) (Nat.succ_lt_succ hj)
      rwa [Nat.cast_succ, ← add_assoc, add_right_comm] at this
    obtain ⟨out, h1, h2, h3⟩ := ih (i0 + 1) (acc ++ [v]) hg'
    refine ⟨v :: out, ?_, by simp [h2], ?_⟩
    · simp only [forLoop, hbody, hv, Except.map]
      rw [h1]
      simp
    · intro j hj
      cases j with
      | zero => simpa using hv
      | succ j =>
        have hj' : j < out.length := by simpa using hj
        have := h3 j hj'
        simp only [List.getElem_cons_succ]
        rw [← this]
        congr 1
        push_cast
        ring

/-- On a well-formed image and for `n ≥ 0`, `SplitImage` returns `n` strips,
strip `i` being the sub-image for the rectangle of round `i`. -/
theorem SplitImage_ok {img : Paletted} (hw : img.WF) {n : Int} (hn : 0 ≤ n) :
    ∃ strips : List Paletted, SplitImage img n = .ok strips ∧ strips.length = n.toNat ∧
      ∀ (i : Nat) (hi : i < strips.length),
        img.SubImage (stripRect img.Rect n i) = .ok strips[i] := by
  obtain ⟨out, h1, h2, h3⟩ := forLoop_collect (fun i => img.SubImage (stripRect img.Rect n i))
    (fun i strips =>
        match img.SubImage (stripRect img.Rect n i) with
        | .ok sub => .ok (strips ++ [sub])
        | .error e => .error e)
    (fun i s => by
      show (match img.SubImage (stripRect img.Rect n i) with
        | .ok sub => .ok (s ++ [sub])
        | .error e => .error e) = (img.SubImage (stripRect img.Rect n i)).map (fun v => s ++ [v])
      cases img.SubImage (stripRect img.Rect n i) <;> rfl)
    n.toNat 0 [] (fun j _ => SubImage_ok hw _)
  refine ⟨out, ?_, h2, ?_⟩
  · unfold SplitImage forRange
    rw [if_neg (by omega), sub_zero]
    simp only [List.nil_append] at h1
    exact h1
  · intro i hi
    simpa using h3 i hi

/-! ## Facts about `SplitImage` -/

theorem Intersect_self_of_inside (s t : Rectangle) (ht : ¬ t.Empty)
    (h1 : s.Min.X ≤ t.Min.X) (h2 : s.Min.Y ≤ t.Min.Y)
    (h3 : t.Max.X ≤ s.Max.X) (h4 : t.Max.Y ≤ s.Max.Y) : t.Intersect s = t := by
  obtain ⟨⟨a, b⟩, ⟨c, d⟩⟩ := t
  revert ht
  unfold Rectangle.Intersect Rectangle.Empty ZR
  simp only [] at h1 h2 h3 h4 ⊢
  split_ifs <;> intro hne <;> apply rect_eq <;> dsimp only <;> omega

/-- Arithmetic of the column step `W / n` for `1 ≤ n ≤ W`. -/
theorem step_facts {W n : Int} (h1 : 1 ≤ n) (h2 : n ≤ W) :
    1 ≤ W / n ∧ n * (W / n) ≤ W ∧ Int.tdiv W n = W / n := by
  refine ⟨?_, Int.mul_ediv_self_le (by omega), Int.tdiv_eq_ediv (by omega) (by omega)⟩
  exact Int.le_ediv_of_mul_le (by omega) (by omega)

/-- Products of a round number with the column step, for rounds `0 ≤ i < n`. -/
theorem round_facts {n s i : Int} (hs : 0 ≤ s) (hi0 : 0 ≤ i) (hin : i < n) :
    0 ≤ i * s ∧ (i + 1) * s = i * s + s ∧ i * s + s ≤ n * s := by
  refine ⟨mul_nonneg hi0 hs, by ring, ?_⟩
  have : (i + 1) * s ≤ n * s := mul_le_mul_of_nonneg_right (by omega) hs
  linarith

/-- The rectangle of round `i`, for `1 ≤ n ≤ W` and `0 ≤ i < n`: columns from
`Min.X + i*(W/n)` to the next boundary, the right edge in the last round. -/
theorem stripRect_eq (b : Rectangle) {n : Int} (i : Int) (h1 : 1 ≤ n) (h2 : n ≤ b.Dx) :
    stripRect b n i =
      Rect (b.Min.X + i * (b.Dx / n)) b.Min.Y
        (if i + 1 = n then b.Max.X else b.Min.X + (i + 1) * (b.Dx / n)) b.Max.Y := by
  obtain ⟨hs1, hs2, hs3⟩ := step_facts h1 h2
  unfold stripRect
  simp only [hs3]
  by_cases hl : i + 1 = n
  · rw [if_pos (by omega), if_pos hl]
    congr 1
    have : (i + 1) * (b.Dx / n) = n * (b.Dx / n) := by rw [hl]
    unfold Rectangle.Dx at this ⊢
    omega
  · rw [if_neg (by omega), if_neg hl]

/-- Strictly increasing boundaries are monotone. -/
theorem bounds_mono (a : Nat → Int) (n : Nat) (h : ∀ i, i < n → a i < a (i + 1)) :
    ∀ i j, i ≤ j → j ≤ n → a i ≤ a j := by
  intro i j hij
  induction j with
  | zero =>
    intro _
    have : i = 0 := by omega
    subst this
    exact le_refl _
  | succ j ih =>
    intro hj
    rcases Nat.eq_or_lt_of_le hij with h0 | h0
    · subst h0; exact le_refl _
    · have h3 := ih (by omega) (by omega)
      have h4 := h j (by omega)
      omega

/-- Every value between the first and the last boundary lies in one cell. -/
theorem bounds_cover (a : Nat → Int) (n : Nat) (x : Int) :
    ∀ m, m ≤ n → a 0 ≤ x → x < a m → ∃ i, i < m ∧ a i ≤ x ∧ x < a (i + 1) := by
  intro m
  induction m with
  | zero => intro _ h1 h2; omega
  | succ m ih =>
    intro hm h1 h2
    by_cases hx : x < a m
    · obtain ⟨i, hi, h3⟩ := ih (by omega) h1 hx
      exact ⟨i, by omega, h3⟩
    · exact ⟨m, by omega, by omega, h2⟩

/-- The points of strip `i` of a well-formed image, for `1 ≤ n ≤ W`. -/
theorem strip_points {img q : Paletted} {n : Int} (i : Nat) (h1 : 1 ≤ n) (h2 : n ≤ img.Rect.Dx)
    (hin : (i : Int) < n) (hq : img.SubImage (stripRect img.Rect n i) = .ok q) (pt : Point) :
    pt.In q.Rect ↔
      img.Rect.Min.X + i * (img.Rect.Dx / n) ≤ pt.X ∧
      pt.X < (if (i : Int) + 1 = n then img.Rect.Max.X
        else img.Rect.Min.X + ((i : Int) + 1) * (img.Rect.Dx / n)) ∧
      img.Rect.Min.Y ≤ pt.Y ∧ pt.Y < img.Rect.Max.Y := by
  obtain ⟨hs1, hs2, -⟩ := step_facts h1 h2
  obtain ⟨hr1, hr2, hr3⟩ := round_facts (n := n) (s := img.Rect.Dx / n) (i := i)
    (by omega) (by omega) hin
  rw [(SubImage_spec hq).1, in_Intersect, stripRect_eq _ _ h1 h2, in_Rect]
  unfold Point.In
  have hW : img.Rect.Dx = img.Rect.Max.X - img.Rect.Min.X := rfl
  split_ifs with hl
  · have : n * (img.Rect.Dx / n) = ↑i * (img.Rect.Dx / n) + img.Rect.Dx / n := by
      rw [← hr2, hl]
    constructor <;> intro h <;> omega
  · constructor <;> intro h <;> omega

theorem Rect_of_le {x0 y0 x1 y1 : Int} (hx : x0 ≤ x1) (hy : y0 ≤ y1) :
    Rect x0 y0 x1 y1 = ⟨⟨x0, y0⟩, ⟨x1, y1⟩⟩ := by
  unfold Rect
  rw [if_neg (by omega), if_neg (by omega)]

/-- The bounds of strip `i` of a well-formed image with at least one row, for
`1 ≤ n ≤ W`. -/
theorem strip_bounds {img q : Paletted} {n : Int} (i : Nat) (h1 : 1 ≤ n) (h2 : n ≤ img.Rect.Dx)
    (hH : 1 ≤ img.Rect.Dy)
    (hin : (i : Int) < n) (hq : img.SubImage (stripRect img.Rect n i) = .ok q) :
    q.Rect = ⟨⟨img.Rect.Min.X + i * (img.Rect.Dx / n), img.Rect.Min.Y⟩,
      ⟨if (i : Int) + 1 = n then img.Rect.Max.X
        else img.Rect.Min.X + ((i : Int) + 1) * (img.Rect.Dx / n), img.Rect.Max.Y⟩⟩ := by
  obtain ⟨hs1, hs2, -⟩ := step_facts h1 h2
  obtain ⟨hr1, hr2, hr3⟩ := round_facts (n := n) (s := img.Rect.Dx / n) (i := i)
    (by omega) (by omega) hin
  have hW : img.Rect.Dx = img.Rect.Max.X - img.Rect.Min.X := rfl
  have hD : img.Rect.Dy = img.Rect.Max.Y - img.Rect.Min.Y := rfl
  have hl : (i : Int) + 1 = n →
      n * (img.Rect.Dx / n) = ↑i * (img.Rect.Dx / n) + img.Rect.Dx / n := by
    intro hl; rw [← hr2, hl]
  rw [(SubImage_spec hq).1, stripRect_eq _ _ h1 h2, Rect_of_le]
  · apply Intersect_self_of_inside
    · unfold Rectangle.Empty; dsimp only; split_ifs with h <;> omega
    all_goals dsimp only
    all_goals omega
  · split_ifs with h <;> omega
  · omega

theorem Intersect_empty_right (r s : Rectangle) (hs : s.Empty) : r.Intersect s = ZR := by
  apply Intersect_empty_eq_ZR
  by_contra hne
  have h := Intersect_of_not_empty r s hne
  rw [h] at hne
  unfold Rectangle.Empty at hs hne
  dsimp only at hne
  omega

/-! ## Claims about `SplitImage` -/

/-- C1, as stated, fails on an image without rows: cutting the rowless image of
columns 5 to 7 into one strip gives the empty image with zero bounds, so the
first strip starts at column 0 and not at the left edge 5 of the image, and the
last strip ends at column 0 and not at the right edge 7. -/
theorem SplitImage_tiles_counterexample :
    NewPaletted (Rect 5 0 7 0) = .ok ⟨⟨0, 0⟩, 2, ⟨⟨5, 0⟩, ⟨7, 0⟩⟩⟩ ∧
    (1 : Int) ≤ 1 ∧ (1 : Int) ≤ Rectangle.Dx ⟨⟨5, 0⟩, ⟨7, 0⟩⟩ ∧
    SplitImage ⟨⟨0, 0⟩, 2, ⟨⟨5, 0⟩, ⟨7, 0⟩⟩⟩ 1 = .ok [⟨⟨0, 0⟩, 0, ZR⟩] ∧
    ZR.Min.X ≠ 5 ∧ ZR.Max.X ≠ 7 :=
  ⟨rfl, by decide, by decide, rfl, by decide, by decide⟩

/-- C1, amended. For a well-formed image of width `W` and every `n` with
`1 ≤ n ≤ W`, `SplitImage` returns `n` strips.  When the image has at least one
row, there are column boundaries `a 0 < a 1 < ... < a n` with `a 0` the left
edge and `a n` the right edge of the image such that the bounds of strip `i`
are the rectangle of the columns `a i ≤ X < a (i+1)` and of the image rows
`Min.Y ≤ Y < Max.Y`: the first strip starts at the left edge, each later strip
starts where the one before ends, the last strip ends at the right edge, and
every strip spans all rows.  When the image has no row, every strip is the
empty image with zero bounds.  In both cases the strips, as sets of points,
are pairwise disjoint and their union is the image rectangle. -/
theorem SplitImage_tiles (img : Paletted) (n : Int) (hw : img.WF)
    (h1 : 1 ≤ n) (h2 : n ≤ img.Rect.Dx) :
    ∃ (strips : List Paletted) (a : Nat → Int),
      SplitImage img n = .ok strips ∧ strips.length = n.toNat ∧
      a 0 = img.Rect.Min.X ∧ a n.toNat = img.Rect.Max.X ∧
      (∀ i, i < n.toNat → a i < a (i + 1)) ∧
      (∀ (i : Nat) (hi : i < strips.length) (pt : Point),
        pt.In strips[i].Rect ↔
          a i ≤ pt.X ∧ pt.X < a (i + 1) ∧ img.Rect.Min.Y ≤ pt.Y ∧ pt.Y < img.Rect.Max.Y) ∧
      (1 ≤ img.Rect.Dy → ∀ (i : Nat) (hi : i < strips.length),
        strips[i].Rect = ⟨⟨a i, img.Rect.Min.Y⟩, ⟨a (i + 1), img.Rect.Max.Y⟩⟩) ∧
      (∀ (i j : Nat) (hi : i < strips.length) (hj : j < strips.length), i ≠ j →
        ∀ pt : Point, ¬ (pt.In strips[i].Rect ∧ pt.In strips[j].Rect)) ∧
      (∀ pt : Point,
        pt.In img.Rect ↔ ∃ (i : Nat) (hi : i < strips.length), pt.In strips[i].Rect) ∧
      (img.Rect.Dy ≤ 0 → ∀ (i : Nat) (hi : i < strips.length), strips[i].Rect = ZR) := by
  obtain ⟨strips, hs, hlen, hsub⟩ := SplitImage_ok hw (by omega : 0 ≤ n)
  obtain ⟨hs1, hs2, -⟩ := step_facts h1 h2
  have hW : img.Rect.Dx = img.Rect.Max.X - img.Rect.Min.X := rfl
  -- the column boundaries
  let a : Nat → Int := fun i =>
    if (i : Int) = n then img.Rect.Max.X else img.Rect.Min.X + i * (img.Rect.Dx / n)
  have ha : ∀ i : Nat, a i =
      if (i : Int) = n then img.Rect.Max.X else img.Rect.Min.X + i * (img.Rect.Dx / n) :=
    fun _ => rfl
  have ha0 : a 0 = img.Rect.Min.X := by
    rw [ha, if_neg (by push_cast; omega)]; simp
  have han : a n.toNat = img.Rect.Max.X := by
    rw [ha, if_pos (by omega)]
  have hcell : ∀ i : Nat, (i : Int) < n → a i = img.Rect.Min.X + i * (img.Rect.Dx / n) ∧
      a (i + 1) = (if (i : Int) + 1 = n then img.Rect.Max.X
        else img.Rect.Min.X + ((i : Int) + 1) * (img.Rect.Dx / n)) := by
    intro i hi
    constructor
    · rw [ha, if_neg (by omega)]
    · rw [ha]; push_cast; rfl
  have hstep : ∀ i, i < n.toNat → a i < a (i + 1) := by
    intro i hi
    have hin : (i : Int) < n := by omega
    obtain ⟨e1, e2⟩ := hcell i hin
    obtain ⟨hr1, hr2, hr3⟩ := round_facts (n := n) (s := img.Rect.Dx / n) (i := i)
      (by omega) (by omega) hin
    rw [e1, e2]
    split_ifs with hl
    · have : n * (img.Rect.Dx / n) = ↑i * (img.Rect.Dx / n) + img.Rect.Dx / n := by
        rw [← hr2, hl]
      omega
    · omega
  have hpts : ∀ (i : Nat) (hi : i < strips.length) (pt : Point),
      pt.In strips[i].Rect ↔
        a i ≤ pt.X ∧ pt.X < a (i + 1) ∧ img.Rect.Min.Y ≤ pt.Y ∧ pt.Y < img.Rect.Max.Y := by
    intro i hi pt
    have hin : (i : Int) < n := by omega
    obtain ⟨e1, e2⟩ := hcell i hin
    rw [e1, e2]
    exact strip_points i h1 h2 hin (hsub i hi) pt
  refine ⟨strips, a, hs, hlen, ha0, han, hstep, hpts, ?_, ?_, ?_, ?_⟩
  · intro hH i hi
    have hin : (i : Int) < n := by omega
    obtain ⟨e1, e2⟩ := hcell i hin
    rw [e1, e2]
    exact strip_bounds i h1 h2 hH hin (hsub i hi)
  · intro i j hi hj hij pt ⟨hpi, hpj⟩
    rw [hpts i hi] at hpi
    rw [hpts j hj] at hpj
    rcases Nat.lt_or_gt_of_ne hij with h | h
    · have := bounds_mono a n.toNat hstep (i + 1) j (by omega) (by omega)
      omega
    · have := bounds_mono a n.toNat hstep (j + 1) i (by omega) (by omega)
      omega
  · intro pt
    constructor
    · intro hp
      have hp' := hp
      unfold Point.In at hp'
      obtain ⟨i, hi, h3, h4⟩ := bounds_cover a n.toNat pt.X n.toNat (le_refl _)
        (by omega) (by omega)
      exact ⟨i, by omega, (hpts i (by omega) pt).2 ⟨h3, h4, hp'.2.2.1, hp'.2.2.2⟩⟩
    · rintro ⟨i, hi, hp⟩
      rw [(SubImage_spec (hsub i hi)).1, in_Intersect] at hp
      exact hp.2
  · intro hH i hi
    rw [(SubImage_spec (hsub i hi)).1, Intersect_empty_right]
    right
    unfold Rectangle.Dy at hH
    omega

/-- C1 amended, at an instance: a 10 by 3 image cut into 3 strips. -/
theorem SplitImage_tiles_witness :
    Paletted.WF ⟨⟨0, 30⟩, 10, ⟨⟨0, 0⟩, ⟨10, 3⟩⟩⟩ ∧ (1 : Int) ≤ 3 ∧
    (3 : Int) ≤ Rectangle.Dx ⟨⟨0, 0⟩, ⟨10, 3⟩⟩ ∧
    ∃ (strips : List Paletted) (a : Nat → Int),
      SplitImage ⟨⟨0, 30⟩, 10, ⟨⟨0, 0⟩, ⟨10, 3⟩⟩⟩ 3 = .ok strips ∧ strips.length = 3 ∧
      a 0 = 0 ∧ a 3 = 10 ∧ (∀ i, i < 3 → a i < a (i + 1)) ∧
      (∀ (i : Nat) (hi : i < strips.length),
        strips[i].Rect = ⟨⟨a i, 0⟩, ⟨a (i + 1), 3⟩⟩) ∧
      (∀ pt : Point, pt.In ⟨⟨0, 0⟩, ⟨10, 3⟩⟩ ↔
        ∃ (i : Nat) (hi : i < strips.length), pt.In strips[i].Rect) := by
  refine ⟨by decide, by decide, by decide, ?_⟩
  obtain ⟨strips, a, h1, h2, h3, h4, h5, -, h7, -, h9, -⟩ :=
    SplitImage_tiles ⟨⟨0, 30⟩, 10, ⟨⟨0, 0⟩, ⟨10, 3⟩⟩⟩ 3 (by decide) (by decide) (by decide)
  exact ⟨strips, a, h1, h2, h3, h4, h5, h7 (by decide), h9⟩

/-- C2, as stated, fails on an image without rows: cutting the 2 by 0 image
into one strip gives the empty image with zero bounds, of width 0 and not
`W - (N-1)*floor(W/N) = 2`. -/
theorem SplitImage_widths_counterexample :
    NewPaletted (Rect 0 0 2 0) = .ok ⟨⟨0, 0⟩, 2, ⟨⟨0, 0⟩, ⟨2, 0⟩⟩⟩ ∧
    SplitImage ⟨⟨0, 0⟩, 2, ⟨⟨0, 0⟩, ⟨2, 0⟩⟩⟩ 1 = .ok [⟨⟨0, 0⟩, 0, ZR⟩] ∧
    Rectangle.Dx ZR = 0 ∧
    Rectangle.Dx ⟨⟨0, 0⟩, ⟨2, 0⟩⟩ - (1 - 1) * (Rectangle.Dx ⟨⟨0, 0⟩, ⟨2, 0⟩⟩ / 1) = 2 :=
  ⟨rfl, rfl, rfl, by decide⟩

/-- C2, amended. For a well-formed image of width `W` and every `n` with
`1 ≤ n ≤ W`, `SplitImage` returns exactly `n` strips.  When the image has at
least one row, strip `i` has width `W / n` for `i < n - 1` and the last strip
has width `W - (n-1) * (W / n)`; when it has no row, every strip has width 0. -/
theorem SplitImage_widths (img : Paletted) (n : Int) (hw : img.WF)
    (h1 : 1 ≤ n) (h2 : n ≤ img.Rect.Dx) :
    ∃ strips : List Paletted,
      SplitImage img n = .ok strips ∧ strips.length = n.toNat ∧
      (1 ≤ img.Rect.Dy → ∀ (i : Nat) (hi : i < strips.length),
        strips[i].Rect.Dx =
          if (i : Int) < n - 1 then img.Rect.Dx / n
          else img.Rect.Dx - (n - 1) * (img.Rect.Dx / n)) ∧
      (img.Rect.Dy ≤ 0 → ∀ (i : Nat) (hi : i < strips.length), strips[i].Rect.Dx = 0) := by
  obtain ⟨strips, hs, hlen, hsub⟩ := SplitImage_ok hw (by omega : 0 ≤ n)
  refine ⟨strips, hs, hlen, ?_, ?_⟩
  · intro hH i hi
    have hin : (i : Int) < n := by omega
    obtain ⟨hr1, hr2, hr3⟩ := round_facts (n := n) (s := img.Rect.Dx / n) (i := i)
      (by have := (step_facts h1 h2).1; omega) (by omega) hin
    rw [strip_bounds i h1 h2 hH hin (hsub i hi)]
    have hW : img.Rect.Dx = img.Rect.Max.X - img.Rect.Min.X := rfl
    unfold Rectangle.Dx
    dsimp only
    by_cases hl : (i : Int) + 1 = n
    · rw [if_pos hl, if_neg (by omega)]
      have : (n - 1) * ((img.Rect.Max.X - img.Rect.Min.X) / n) =
          ↑i * ((img.Rect.Max.X - img.Rect.Min.X) / n) := by
        rw [← hl]; ring
      rw [this]
      ring
    · rw [if_neg hl, if_pos (by omega)]
      ring
  · intro hH i hi
    rw [(SubImage_spec (hsub i hi)).1, Intersect_empty_right]
    · rfl
    · right
      unfold Rectangle.Dy at hH
      omega

/-- C2 amended, at an instance: a 10 by 3 image cut into 3 strips. -/
theorem SplitImage_widths_witness :
    Paletted.WF ⟨⟨0, 30⟩, 10, ⟨⟨0, 0⟩, ⟨10, 3⟩⟩⟩ ∧ (1 : Int) ≤ 3 ∧
    (3 : Int) ≤ Rectangle.Dx ⟨⟨0, 0⟩, ⟨10, 3⟩⟩ ∧
    ∃ strips : List Paletted,
      SplitImage ⟨⟨0, 30⟩, 10, ⟨⟨0, 0⟩, ⟨10, 3⟩⟩⟩ 3 = .ok strips ∧ strips.length = 3 ∧
      (∀ (i : Nat) (hi : i < strips.length),
        strips[i].Rect.Dx = if (i : Int) < 3 - 1 then 3 else 4) := by
  refine ⟨by decide, by decide, by decide, ?_⟩
  obtain ⟨strips, h1, h2, h3, -⟩ :=
    SplitImage_widths ⟨⟨0, 30⟩, 10, ⟨⟨0, 0⟩, ⟨10, 3⟩⟩⟩ 3 (by decide) (by decide) (by decide)
  exact ⟨strips, h1, h2, h3 (by decide)⟩

/-- The rectangle of round `i` when the image is narrower than the number of
strips: the column step is 0, so every round but the last asks for an empty
rectangle and the last one for the whole width. -/
theorem stripRect_narrow (b : Rectangle) {n : Int} (i : Int) (h0 : 0 ≤ b.Dx) (h2 : b.Dx < n) :
    stripRect b n i =
      Rect b.Min.X b.Min.Y (if i = n - 1 then b.Max.X else b.Min.X) b.Max.Y := by
  have hd : Int.tdiv b.Dx n = 0 := by
    rw [Int.tdiv_eq_ediv h0 (by omega)]
    exact Int.ediv_eq_zero_of_lt h0 h2
  unfold stripRect
  simp only [hd, mul_zero, add_zero, sub_zero]
  unfold Rectangle.Dx
  split_ifs <;> first | (congr 1; omega) | congr 1

/-- C3, as stated, fails: with `N = 3` strips asked of an image of width
`W = 2`, and with `N = 0`, `SplitImage` returns strips and no error. -/
theorem SplitImage_error_counterexample :
    SplitImage ⟨⟨0, 2⟩, 2, ⟨⟨0, 0⟩, ⟨2, 1⟩⟩⟩ 3 =
      .ok [⟨⟨0, 0⟩, 0, ZR⟩, ⟨⟨0, 0⟩, 0, ZR⟩, ⟨⟨0, 2⟩, 2, ⟨⟨0, 0⟩, ⟨2, 1⟩⟩⟩] ∧
    SplitImage ⟨⟨0, 2⟩, 2, ⟨⟨0, 0⟩, ⟨2, 1⟩⟩⟩ 0 = .ok [] :=
  ⟨rfl, rfl⟩

/-- C3, amended. On a well-formed image `SplitImage` fails exactly when
`n < 0`, by the panic of `make` with a negative length, and then produces no
strips; there is no error for `n = 0` or for `n` above the width `W`.  For
every `n ≥ 0` it returns `n` strips; for `n > W ≥ 0` all strips but the last are
empty and the last one is the whole image. -/
theorem SplitImage_fails_iff (img : Paletted) (n : Int) (hw : img.WF) :
    (n < 0 → SplitImage img n = .error .makeslice) ∧
    (0 ≤ n → ∃ strips : List Paletted,
      SplitImage img n = .ok strips ∧ strips.length = n.toNat ∧
      (0 ≤ img.Rect.Dx → img.Rect.Dx < n →
        ∀ (i : Nat) (hi : i < strips.length) (pt : Point),
          pt.In strips[i].Rect ↔ ((i : Int) = n - 1 ∧ pt.In img.Rect))) := by
  constructor
  · intro hn
    unfold SplitImage
    rw [if_pos hn]
  · intro hn
    obtain ⟨strips, hs, hlen, hsub⟩ := SplitImage_ok hw hn
    refine ⟨strips, hs, hlen, ?_⟩
    intro h0 h2 i hi pt
    rw [(SubImage_spec (hsub i hi)).1, in_Intersect, stripRect_narrow _ _ h0 h2, in_Rect]
    unfold Point.In
    unfold Rectangle.Dx at h0
    constructor <;> intro h <;> omega

/-- C3 amended, at an instance: 3 strips asked of a 2 by 1 image. -/
theorem SplitImage_fails_iff_witness :
    Paletted.WF ⟨⟨0, 2⟩, 2, ⟨⟨0, 0⟩, ⟨2, 1⟩⟩⟩ ∧
    (((3 : Int) < 0 → SplitImage ⟨⟨0, 2⟩, 2, ⟨⟨0, 0⟩, ⟨2, 1⟩⟩⟩ 3 = .error .makeslice) ∧
    ((0 : Int) ≤ 3 → ∃ strips : List Paletted,
      SplitImage ⟨⟨0, 2⟩, 2, ⟨⟨0, 0⟩, ⟨2, 1⟩⟩⟩ 3 = .ok strips ∧ strips.length = Int.toNat 3 ∧
      (0 ≤ Rectangle.Dx ⟨⟨0, 0⟩, ⟨2, 1⟩⟩ → Rectangle.Dx ⟨⟨0, 0⟩, ⟨2, 1⟩⟩ < 3 →
        ∀ (i : Nat) (hi : i < strips.length) (pt : Point),
          pt.In strips[i].Rect ↔ ((i : Int) = 3 - 1 ∧ pt.In ⟨⟨0, 0⟩, ⟨2, 1⟩⟩)))) :=
  ⟨by decide, SplitImage_fails_iff ⟨⟨0, 2⟩, 2, ⟨⟨0, 0⟩, ⟨2, 1⟩⟩⟩ 3 (by decide)⟩

/-! ## Facts about `Mandelbrot.At` -/

/-- The loop counter only grows, and not beyond `MaxIterations`. -/
theorem loop_bounds {F : Type} (A : Arith F) (m : Mandelbrot F) (c : F × F) :
    ∀ (fuel : Nat) (z : F × F) (itr : Int), itr ≤ m.MaxIterations →
      itr ≤ m.loop A c fuel z itr ∧ m.loop A c fuel z itr ≤ m.MaxIterations := by
  intro fuel
  induction fuel with
  | zero => intro z itr h; exact ⟨le_refl _, h⟩
  | succ fuel ih =>
    intro z itr h
    unfold Mandelbrot.loop
    split_ifs with hc
    · simp only [Bool.and_eq_true, decide_eq_true_eq] at hc
      obtain ⟨h1, h2⟩ := ih (A.step c z) (itr + 1) (by omega)
      exact ⟨by omega, h2⟩
    · exact ⟨le_refl _, h⟩

/-- Fuel beyond the rounds that are left does not change the result of the
loop: the model never stops for lack of fuel. -/
theorem loop_fuel {F : Type} (A : Arith F) (m : Mandelbrot F) (c : F × F) :
    ∀ (fuel extra : Nat) (z : F × F) (itr : Int), (m.MaxIterations - itr).toNat ≤ fuel →
      m.loop A c (fuel + extra) z itr = m.loop A c fuel z itr := by
  intro fuel
  induction fuel with
  | zero =>
    intro extra z itr h
    cases extra with
    | zero => rfl
    | succ e =>
      have : ¬ itr < m.MaxIterations := by omega
      simp [Mandelbrot.loop, this]
  | succ fuel ih =>
    intro extra z itr h
    rw [Nat.add_right_comm]
    unfold Mandelbrot.loop
    split_ifs with hc
    · simp only [Bool.and_eq_true, decide_eq_true_eq] at hc
      exact ih extra _ _ (by omega)
    · rfl

theorem uint8_le {v : Int} (h : 0 ≤ v) : (uint8 v : Int) ≤ v := by
  unfold uint8; omega

theorem uint8_of_le {v : Int} (h0 : 0 ≤ v) (h : v ≤ 255) : (uint8 v : Int) = v := by
  unfold uint8; omega

/-- The exact test is the test on the real absolute value `sqrt(re² + im²)`. -/
theorem exactArith_absLt (re im b : ℚ) :
    exactArith.absLt re im b = true ↔
      Real.sqrt ((re : ℝ) ^ 2 + (im : ℝ) ^ 2) < (b : ℝ) := by
  simp only [exactArith, decide_eq_true_eq]
  constructor
  · rintro ⟨hb, h⟩
    have hb' : (0 : ℝ) < b := by exact_mod_cast hb
    rw [Real.sqrt_lt' hb']
    have : ((re * re + im * im : ℚ) : ℝ) < ((b * b : ℚ) : ℝ) := by exact_mod_cast h
    push_cast at this
    nlinarith
  · intro h
    have hb' : (0 : ℝ) < b := lt_of_le_of_lt (Real.sqrt_nonneg _) h
    rw [Real.sqrt_lt' hb'] at h
    refine ⟨by exact_mod_cast hb', ?_⟩
    have : ((re * re + im * im : ℚ) : ℝ) < ((b * b : ℚ) : ℝ) := by
      push_cast; nlinarith
    exact_mod_cast this

/-- One round of the loop moves `z` one step along the orbit. -/
theorem step_orbit (c : ℚ × ℚ) (j : Nat) : exactArith.step c (orbit c j) = orbit c (j + 1) := by
  simp only [Arith.step, exactArith, orbit, Prod.mk.injEq, true_and]
  ring

/-- The loop, started on the orbit at `itr = j`, stops at the first `k ≥ j`
where the test `|z_k| < Bailout && k < MaxIterations` fails, or when the fuel
is used up. -/
theorem loop_orbit (m : Mandelbrot ℚ) (c : ℚ × ℚ) :
    ∀ (fuel j : Nat), ∃ k : Nat,
      m.loop exactArith c fuel (orbit c j) j = k ∧ j ≤ k ∧ k ≤ j + fuel ∧
      (∀ i, j ≤ i → i < k →
        exactArith.absLt (orbit c i).1 (orbit c i).2 m.Bailout = true ∧
          (i : Int) < m.MaxIterations) ∧
      (k = j + fuel ∨
        ¬ (exactArith.absLt (orbit c k).1 (orbit c k).2 m.Bailout = true ∧
          (k : Int) < m.MaxIterations)) := by
  intro fuel
  induction fuel with
  | zero =>
    intro j
    exact ⟨j, rfl, le_refl _, le_refl _, fun i h1 h2 => by omega, Or.inl rfl⟩
  | succ fuel ih =>
    intro j
    unfold Mandelbrot.loop
    split_ifs with hc
    · simp only [Bool.and_eq_true, decide_eq_true_eq] at hc
      obtain ⟨k, h1, h2, h3, h4, h5⟩ := ih (j + 1)
      refine ⟨k, ?_, by omega, by omega, ?_, ?_⟩
      · rw [step_orbit]
        exact_mod_cast h1
      · intro i hi1 hi2
        rcases Nat.eq_or_lt_of_le hi1 with h | h
        · subst h; exact hc
        · exact h4 i (by omega) hi2
      · rcases h5 with h | h
        · left; omega
        · right; exact h
    · simp only [Bool.and_eq_true, decide_eq_true_eq] at hc
      exact ⟨j, rfl, le_refl _, by omega, fun i h1 h2 => by omega, Or.inr hc⟩

/-- The iteration count of `Mandelbrot.At` over exact arithmetic, for
`MaxIterations ≥ 0`: a `k ≤ MaxIterations` such that `|z_i| < Bailout` for all
`i < k`, and `k = MaxIterations` or `|z_k| ≥ Bailout`. -/
theorem At_count (m : Mandelbrot ℚ) (X Y : Int) (hM : 0 ≤ m.MaxIterations) :
    ∃ k : Nat, m.At exactArith X Y = uint8 k ∧ (k : Int) ≤ m.MaxIterations ∧
      (∀ i, i < k →
        exactArith.absLt (orbit (m.constant exactArith X Y) i).1
          (orbit (m.constant exactArith X Y) i).2 m.Bailout = true) ∧
      ((k : Int) = m.MaxIterations ∨
        exactArith.absLt (orbit (m.constant exactArith X Y) k).1
          (orbit (m.constant exactArith X Y) k).2 m.Bailout = false) := by
  obtain ⟨k, h1, -, h3, h4, h5⟩ := loop_orbit m (m.constant exactArith X Y) m.MaxIterations.toNat 0
  refine ⟨k, ?_, by omega, fun i hi => (h4 i (Nat.zero_le _) hi).1, ?_⟩
  · unfold Mandelbrot.At
    simp only []
    have : (exactArith.zero, exactArith.zero) = orbit (m.constant exactArith X Y) 0 := rfl
    rw [this]
    have h1' := h1
    simp only [Nat.cast_zero] at h1'
    rw [h1']
  · rcases h5 with h | h
    · left; omega
    · rw [not_and_or] at h
      rcases h with h | h
      · right; simpa using h
      · left; omega

theorem orbit_zero : ∀ k : Nat, orbit (0, 0) k = (0, 0) := by
  intro k
  induction k with
  | zero => rfl
  | succ k ih => simp only [orbit]; rw [ih]; norm_num

theorem orbit_one (c : ℚ × ℚ) : orbit c 1 = c := by
  simp [orbit]

/-- A pixel whose constant is `0` is iterated `MaxIterations` times. -/
theorem At_of_zero_constant (m : Mandelbrot ℚ) (X Y : Int) (hB : 0 < m.Bailout)
    (hM : 0 ≤ m.MaxIterations) (hc : m.constant exactArith X Y = (0, 0)) :
    m.At exactArith X Y = uint8 m.MaxIterations := by
  obtain ⟨k, h1, h2, -, h4⟩ := At_count m X Y hM
  rw [hc, orbit_zero] at h4
  rcases h4 with h | h
  · rw [h1, h]
  · have : exactArith.absLt (0 : ℚ) 0 m.Bailout = true := by
      simp only [exactArith, decide_eq_true_eq]
      exact ⟨hB, by nlinarith⟩
    simp only [] at h
    rw [this] at h
    exact absurd h (by decide)

/-- A pixel whose constant is outside the bailout radius is iterated once. -/
theorem At_of_escaping_constant (m : Mandelbrot ℚ) (X Y : Int) (hB : 0 < m.Bailout)
    (hM : 1 ≤ m.MaxIterations)
    (hesc : exactArith.absLt (m.constant exactArith X Y).1 (m.constant exactArith X Y).2
      m.Bailout = false) :
    m.At exactArith X Y = 1 := by
  obtain ⟨k, h1, h2, h3, h4⟩ := At_count m X Y (by omega)
  have hk1 : k ≤ 1 := by
    by_contra hk
    have := h3 1 (by omega)
    rw [orbit_one, hesc] at this
    exact absurd this (by decide)
  have hk0 : k ≠ 0 := by
    intro hk
    subst hk
    rcases h4 with h | h
    · simp only [Nat.cast_zero] at h; omega
    · have : exactArith.absLt (0 : ℚ) 0 m.Bailout = true := by
        simp only [exactArith, decide_eq_true_eq]
        exact ⟨hB, by nlinarith⟩
      simp only [orbit] at h
      rw [this] at h
      exact absurd h (by decide)
  have : k = 1 := by omega
  rw [h1, this]
  rfl

/-! ## Claims about `Mandelbrot.At` -/

/-- C4. For every pixel `(X, Y)`, image rectangle, window and parameter set
with positive `MaxIterations`, and for every arithmetic in the place of
`float64` (so whatever the rounding, and for every `Bailout`), the value of
`Mandelbrot.At` lies in `[0, MaxIterations]`. -/
theorem At_bounded {F : Type} (A : Arith F) (m : Mandelbrot F) (X Y : Int)
    (hM : 0 < m.MaxIterations) :
    (0 : Int) ≤ m.At A X Y ∧ (m.At A X Y : Int) ≤ m.MaxIterations := by
  obtain ⟨h1, h2⟩ := loop_bounds A m (m.constant A X Y) m.MaxIterations.toNat
    (A.zero, A.zero) 0 (by omega)
  refine ⟨Int.natCast_nonneg _, ?_⟩
  unfold Mandelbrot.At
  exact le_trans (uint8_le h1) h2

/-- C4, at an instance: the pixel `(3, 4)` of a 10 by 10 image, 8 iterations. -/
theorem At_bounded_witness :
    (0 : Int) < 8 ∧
    (0 : Int) ≤ (Mandelbrot.mk ⟨-2, -1⟩ ⟨1, 1⟩ ⟨⟨0, 0⟩, ⟨10, 10⟩⟩ 2 8).At exactArith 3 4 ∧
    ((Mandelbrot.mk ⟨-2, -1⟩ ⟨1, 1⟩ ⟨⟨0, 0⟩, ⟨10, 10⟩⟩ 2 8).At exactArith 3 4 : Int) ≤ 8 :=
  ⟨by decide,
    At_bounded exactArith (Mandelbrot.mk ⟨-2, -1⟩ ⟨1, 1⟩ ⟨⟨0, 0⟩, ⟨10, 10⟩⟩ 2 8) 3 4 (by decide)⟩

/-- C5. Over exact arithmetic, for a pixel whose constant is `c` and every
`MaxIterations` in `0..255` (and every `Bailout`), `Mandelbrot.At` returns the
least `k ≤ MaxIterations` with `|z_k| ≥ Bailout`, where `z_0 = 0` and
`z_{k+1} = z_k² + c`, and `MaxIterations` when there is no such `k`. -/
theorem At_escape_time (m : Mandelbrot ℚ) (X Y : Int) (c : ℚ × ℚ)
    (hc : m.constant exactArith X Y = c)
    (h0 : 0 ≤ m.MaxIterations) (h255 : m.MaxIterations ≤ 255) :
    ((m.At exactArith X Y : Int) ≤ m.MaxIterations) ∧
    ((∃ k : Nat, (k : Int) ≤ m.MaxIterations ∧
        (m.Bailout : ℝ) ≤ Real.sqrt (((orbit c k).1 : ℝ) ^ 2 + ((orbit c k).2 : ℝ) ^ 2)) →
      (m.Bailout : ℝ) ≤ Real.sqrt (((orbit c (m.At exactArith X Y)).1 : ℝ) ^ 2 +
          ((orbit c (m.At exactArith X Y)).2 : ℝ) ^ 2) ∧
      ∀ i : Nat, i < m.At exactArith X Y →
        Real.sqrt (((orbit c i).1 : ℝ) ^ 2 + ((orbit c i).2 : ℝ) ^ 2) < (m.Bailout : ℝ)) ∧
    ((¬ ∃ k : Nat, (k : Int) ≤ m.MaxIterations ∧
        (m.Bailout : ℝ) ≤ Real.sqrt (((orbit c k).1 : ℝ) ^ 2 + ((orbit c k).2 : ℝ) ^ 2)) →
      (m.At exactArith X Y : Int) = m.MaxIterations) := by
  obtain ⟨k, h1, h2, h3, h4⟩ := At_count m X Y h0
  rw [hc] at h3 h4
  have hk : m.At exactArith X Y = k := by
    rw [h1]
    have := uint8_of_le (Int.natCast_nonneg k) (by omega)
    exact_mod_cast this
  rw [hk]
  have hlt : ∀ i : Nat, i < k →
      Real.sqrt (((orbit c i).1 : ℝ) ^ 2 + ((orbit c i).2 : ℝ) ^ 2) < (m.Bailout : ℝ) :=
    fun i hi => (exactArith_absLt _ _ _).1 (h3 i hi)
  have hge : exactArith.absLt (orbit c k).1 (orbit c k).2 m.Bailout = false →
      (m.Bailout : ℝ) ≤ Real.sqrt (((orbit c k).1 : ℝ) ^ 2 + ((orbit c k).2 : ℝ) ^ 2) := by
    intro h
    by_contra hn
    rw [not_le, ← exactArith_absLt, h] at hn
    exact absurd hn (by decide)
  refine ⟨h2, ?_, ?_⟩
  · rintro ⟨j, hj1, hj2⟩
    refine ⟨?_, hlt⟩
    rcases h4 with h | h
    · have hjk : j = k := by
        by_contra hne
        have := hlt j (by omega)
        linarith
      rw [← hjk]
      exact hj2
    · exact hge h
  · intro hn
    rcases h4 with h | h
    · exact h
    · exact absurd ⟨k, h2, hge h⟩ hn

/-- C5, at an instance: the constant `c = 1` leaves the disc of radius 2 at
`z_2 = 2` (`z_1 = 1`), and `Mandelbrot.At` returns 2. -/
theorem At_escape_time_witness :
    (Mandelbrot.mk ⟨1, 0⟩ ⟨3, 1⟩ ⟨⟨0, 0⟩, ⟨10, 10⟩⟩ 2 3).constant exactArith 0 0 = (1, 0) ∧
    (0 : Int) ≤ 3 ∧ (3 : Int) ≤ 255 ∧
    ((Mandelbrot.mk ⟨1, 0⟩ ⟨3, 1⟩ ⟨⟨0, 0⟩, ⟨10, 10⟩⟩ 2 3).At exactArith 0 0 : Int) ≤ 3 ∧
    (Mandelbrot.mk ⟨1, 0⟩ ⟨3, 1⟩ ⟨⟨0, 0⟩, ⟨10, 10⟩⟩ 2 3).At exactArith 0 0 = 2 := by
  have hc : (Mandelbrot.mk ⟨1, 0⟩ ⟨3, 1⟩ ⟨⟨0, 0⟩, ⟨10, 10⟩⟩ 2 3).constant exactArith 0 0 =
      (1, 0) := by
    simp [Mandelbrot.constant, exactArith]
  refine ⟨hc, by decide, by decide,
    (At_escape_time _ 0 0 (1, 0) hc (by decide) (by decide)).1, ?_⟩
  simp [Mandelbrot.At, Mandelbrot.constant, Mandelbrot.loop, Arith.step, exactArith, uint8]
  norm_num
  rfl

/-- C6, as stated, fails for `MaxIterations` above 255: with 256 iterations
the pixel whose constant is `0` gets the colour index `uint8(256) = 0`, not
256. -/
theorem At_zero_counterexample :
    (0 : ℚ) < 2 ∧ (0 : Int) < 256 ∧
    (Mandelbrot.mk ⟨0, 0⟩ ⟨1, 1⟩ ⟨⟨0, 0⟩, ⟨10, 10⟩⟩ 2 256).constant exactArith 0 0 = (0, 0) ∧
    (Mandelbrot.mk ⟨0, 0⟩ ⟨1, 1⟩ ⟨⟨0, 0⟩, ⟨10, 10⟩⟩ 2 256).At exactArith 0 0 = 0 := by
  have hc : (Mandelbrot.mk ⟨0, 0⟩ ⟨1, 1⟩ ⟨⟨0, 0⟩, ⟨10, 10⟩⟩ 2 256).constant exactArith 0 0 =
      (0, 0) := by
    simp [Mandelbrot.constant, exactArith]
  refine ⟨by norm_num, by decide, hc, ?_⟩
  rw [At_of_zero_constant _ 0 0 (by norm_num) (by decide) hc]
  decide

/-- C6, amended. Over exact arithmetic, for every parameter set with positive
`Bailout` and positive `MaxIterations`, a pixel whose constant is `c = 0` makes
`Mandelbrot.At` return `MaxIterations mod 256`, the low 8 bits of the count;
that is exactly `MaxIterations` when `MaxIterations ≤ 255`. -/
theorem At_zero (m : Mandelbrot ℚ) (X Y : Int) (hB : 0 < m.Bailout)
    (hM : 0 < m.MaxIterations) (hc : m.constant exactArith X Y = (0, 0)) :
    (m.At exactArith X Y : Int) = m.MaxIterations % 256 ∧
    (m.MaxIterations ≤ 255 → (m.At exactArith X Y : Int) = m.MaxIterations) := by
  rw [At_of_zero_constant m X Y hB (by omega) hc]
  unfold uint8
  constructor
  · omega
  · intro h; omega

/-- C6 amended, at the instance of the claim: `Start = (0, 0)` and the pixel at
the `Min` corner of the rectangle, 255 iterations as in `main`. -/
theorem At_zero_witness :
    (0 : ℚ) < 2 ∧ (0 : Int) < 255 ∧
    (Mandelbrot.mk ⟨0, 0⟩ ⟨1, 1⟩ ⟨⟨3, 4⟩, ⟨10, 10⟩⟩ 2 255).constant exactArith 3 4 = (0, 0) ∧
    ((Mandelbrot.mk ⟨0, 0⟩ ⟨1, 1⟩ ⟨⟨3, 4⟩, ⟨10, 10⟩⟩ 2 255).At exactArith 3 4 : Int) = 255 := by
  have hc : (Mandelbrot.mk ⟨0, 0⟩ ⟨1, 1⟩ ⟨⟨3, 4⟩, ⟨10, 10⟩⟩ 2 255).constant exactArith 3 4 =
      (0, 0) := by
    simp [Mandelbrot.constant, exactArith]
  exact ⟨by norm_num, by decide, hc,
    (At_zero _ 3 4 (by norm_num) (by decide) hc).2 (by decide)⟩

/-- C7, as stated, fails: with `Bailout = 2.0` and 50 iterations the pixel whose
constant is `c = 2+0i` (`Start = (2, 0)`, the pixel at the `Min` corner) gets the
count 1, not 0: the first test is made on `z = 0`. -/
theorem At_two_counterexample :
    (Mandelbrot.mk ⟨2, 0⟩ ⟨3, 1⟩ ⟨⟨0, 0⟩, ⟨10, 10⟩⟩ 2 50).constant exactArith 0 0 = (2, 0) ∧
    (Mandelbrot.mk ⟨2, 0⟩ ⟨3, 1⟩ ⟨⟨0, 0⟩, ⟨10, 10⟩⟩ 2 50).At exactArith 0 0 = 1 := by
  have hc : (Mandelbrot.mk ⟨2, 0⟩ ⟨3, 1⟩ ⟨⟨0, 0⟩, ⟨10, 10⟩⟩ 2 50).constant exactArith 0 0 =
      (2, 0) := by
    simp [Mandelbrot.constant, exactArith]
  refine ⟨hc, At_of_escaping_constant _ 0 0 (by norm_num) (by decide) ?_⟩
  rw [hc]
  simp [exactArith]

/-- C7, amended. Over exact arithmetic, with `Bailout = 2.0` and any
`MaxIterations ≥ 1`, a pixel whose constant is `c = 2+0i` makes `Mandelbrot.At`
return 1: one round is made from `z = 0`, after which `|z| = 2 ≥ Bailout`. -/
theorem At_two (m : Mandelbrot ℚ) (X Y : Int) (hB : m.Bailout = 2)
    (hM : 1 ≤ m.MaxIterations) (hc : m.constant exactArith X Y = (2, 0)) :
    m.At exactArith X Y = 1 := by
  apply At_of_escaping_constant m X Y (by rw [hB]; norm_num) hM
  rw [hc, hB]
  simp [exactArith]

/-- C7 amended, at the instance of the claim: `Start = (2, 0)` and the pixel at
the `Min` corner of the rectangle. -/
theorem At_two_witness :
    (2 : ℚ) = 2 ∧ (1 : Int) ≤ 255 ∧
    (Mandelbrot.mk ⟨2, 0⟩ ⟨3, 1⟩ ⟨⟨3, 4⟩, ⟨10, 10⟩⟩ 2 255).constant exactArith 3 4 = (2, 0) ∧
    (Mandelbrot.mk ⟨2, 0⟩ ⟨3, 1⟩ ⟨⟨3, 4⟩, ⟨10, 10⟩⟩ 2 255).At exactArith 3 4 = 1 := by
  have hc : (Mandelbrot.mk ⟨2, 0⟩ ⟨3, 1⟩ ⟨⟨3, 4⟩, ⟨10, 10⟩⟩ 2 255).constant exactArith 3 4 =
      (2, 0) := by
    simp [Mandelbrot.constant, exactArith]
  exact ⟨rfl, by decide, hc, At_two _ 3 4 rfl (by decide) hc⟩

/-! ## Facts about `Render` -/

theorem point_eq {p q : Point} (h1 : p.X = q.X) (h2 : p.Y = q.Y) : p = q := by
  obtain ⟨a, b⟩ := p
  obtain ⟨c, d⟩ := q
  simp only [] at h1 h2
  subst h1 h2
  rfl

/-- A loop keeps an invariant that each of its rounds keeps, and does not
panic when no round does. -/
theorem forLoop_inv {σ : Type} (body : Int → σ → Except Panic σ) (I : Nat → σ → Prop)
    (i0 : Int) :
    ∀ (k j0 : Nat) (s : σ), I j0 s →
      (∀ (j : Nat) (t : σ), j0 ≤ j → j < j0 + k → I j t →
        ∃ t', body (i0 + j) t = .ok t' ∧ I (j + 1) t') →
      ∃ s', forLoop body k (i0 + j0) s = .ok s' ∧ I (j0 + k) s' := by
  intro k
  induction k with
  | zero => intro j0 s h _; exact ⟨s, rfl, h⟩
  | succ k ih =>
    intro j0 s h hstep
    obtain ⟨t, ht1, ht2⟩ := hstep j0 s (le_refl _) (by omega) h
    obtain ⟨s', hs1, hs2⟩ := ih (j0 + 1) t ht2
      (fun j u hj1 hj2 hu => hstep j u (by omega) (by omega) hu)
    refine ⟨s', ?_, ?_⟩
    · simp only [forLoop, ht1]
      rw [← hs1]
      congr 1
      push_cast
      ring
    · have e : j0 + (k + 1) = j0 + 1 + k := by omega
      rw [e]
      exact hs2

/-- In a well-formed image the offset of a pixel inside the bounds is an index
of the pixel slice. -/
theorem offset_bounds {img : Paletted} (hw : img.WF) {pt : Point} (hp : pt.In img.Rect) :
    0 ≤ img.PixOffset pt.X pt.Y ∧ img.PixOffset pt.X pt.Y < img.Pix.len := by
  rcases hw with he | ⟨hs, hl⟩
  · exact absurd he (not_empty_of_in hp)
  · unfold Point.In at hp
    unfold Rectangle.Dx at hs hl
    unfold Rectangle.Dy at hl
    unfold Paletted.PixOffset
    have hS : 0 ≤ img.Stride := by omega
    have h1 := mul_nonneg (by omega : 0 ≤ pt.Y - img.Rect.Min.Y) hS
    have h2 := mul_le_mul_of_nonneg_right
      (by omega : pt.Y - img.Rect.Min.Y ≤ img.Rect.Max.Y - img.Rect.Min.Y - 1) hS
    constructor <;> omega

/-- In a well-formed image two pixels inside the bounds with the same offset
are the same pixel. -/
theorem offset_inj {img : Paletted} (hw : img.WF) {p q : Point}
    (hp : p.In img.Rect) (hq : q.In img.Rect)
    (h : img.PixOffset p.X p.Y = img.PixOffset q.X q.Y) : p = q := by
  rcases hw with he | ⟨hs, -⟩
  · exact absurd he (not_empty_of_in hp)
  · unfold Point.In at hp hq
    unfold Rectangle.Dx at hs
    unfold Paletted.PixOffset at h
    have hS : 0 ≤ img.Stride := by omega
    have hy : p.Y = q.Y := by
      by_contra hne
      rcases lt_or_gt_of_ne hne with hlt | hlt
      · have h2 := mul_le_mul_of_nonneg_right
          (by omega : p.Y - img.Rect.Min.Y + 1 ≤ q.Y - img.Rect.Min.Y) hS
        rw [add_mul] at h2
        omega
      · have h2 := mul_le_mul_of_nonneg_right
          (by omega : q.Y - img.Rect.Min.Y + 1 ≤ p.Y - img.Rect.Min.Y) hS
        rw [add_mul] at h2
        omega
    apply point_eq _ hy
    rw [hy] at h
    omega

/-- In a well-formed image two pixels inside the bounds in the same cell are the
same pixel. -/
theorem cell_inj {img : Paletted} (hw : img.WF) {p q : Point}
    (hp : p.In img.Rect) (hq : q.In img.Rect) (h : img.cell p = img.cell q) : p = q := by
  have h1 := offset_bounds hw hp
  have h2 := offset_bounds hw hq
  unfold Paletted.cell at h
  exact offset_inj hw hp hq (by omega)


/-- The pixel that `Render` stores next is added to the stored pixels. -/
theorem rendered_succ (img : Paletted) (cx ry : Nat)
    (hp : (Point.mk (img.Rect.Min.X + cx) (img.Rect.Min.Y + ry)).In img.Rect) (pt : Point) :
    rendered img cx (ry + 1) pt ↔
      rendered img cx ry pt ∨ pt = ⟨img.Rect.Min.X + cx, img.Rect.Min.Y + ry⟩ := by
  unfold rendered
  constructor
  · rintro ⟨h1, h2⟩
    by_cases hy : pt.X = img.Rect.Min.X + cx ∧ pt.Y = img.Rect.Min.Y + ry
    · right; exact point_eq hy.1 hy.2
    · left
      refine ⟨h1, ?_⟩
      push_cast at h2
      omega
  · rintro (⟨h1, h2⟩ | h)
    · refine ⟨h1, ?_⟩
      push_cast
      omega
    · subst h
      refine ⟨hp, ?_⟩
      dsimp only
      push_cast
      omega

/-- The pixels stored after a whole column are those stored before the next. -/
theorem rendered_column (img : Paletted) (cx : Nat) (pt : Point) :
    rendered img cx img.Rect.Dy.toNat pt ↔ rendered img (cx + 1) 0 pt := by
  unfold rendered Point.In Rectangle.Dy
  push_cast
  constructor <;> rintro ⟨h1, h2⟩ <;> refine ⟨h1, ?_⟩ <;> omega

/-- The pixels stored after all columns are the pixels of the bounds. -/
theorem rendered_all (img : Paletted) (pt : Point) :
    rendered img img.Rect.Dx.toNat 0 pt ↔ pt.In img.Rect := by
  unfold rendered Point.In Rectangle.Dx
  constructor
  · rintro ⟨h1, _⟩; exact h1
  · intro h; refine ⟨h, ?_⟩; omega

/-- One round of the inner loop of `Render` keeps the invariant. -/
theorem renderPixel_inv {img : Paletted} (hw : img.WF) (fractal : Int → Int → Nat) (mem0 : Mem)
    {cx ry : Nat} (hcx : cx < img.Rect.Dx.toNat) (hry : ry < img.Rect.Dy.toNat)
    {s : RenderState} (hs : RenderInv img fractal mem0 cx ry s) :
    ∃ s', renderPixel img fractal (img.Rect.Min.X + cx) (img.Rect.Min.Y + ry) s = .ok s' ∧
      RenderInv img fractal mem0 cx (ry + 1) s' := by
  obtain ⟨h1, h2, hlen, h3, h4, h5, h6, h7⟩ := hs
  have hp : (Point.mk (img.Rect.Min.X + cx) (img.Rect.Min.Y + ry)).In img.Rect := by
    unfold Point.In
    unfold Rectangle.Dx at hcx
    unfold Rectangle.Dy at hry
    dsimp only
    omega
  have hb := offset_bounds hw hp
  have hnew : ¬ rendered img cx ry ⟨img.Rect.Min.X + cx, img.Rect.Min.Y + ry⟩ := by
    unfold rendered
    dsimp only
    omega
  refine ⟨⟨Function.update s.mem (img.cell ⟨img.Rect.Min.X + cx, img.Rect.Min.Y + ry⟩)
      (fractal (img.Rect.Min.X + cx) (img.Rect.Min.Y + ry)), s.num_of_pix + 1,
    s.sent ++ [s.num_of_pix + 1], s.writes ++ [⟨img.Rect.Min.X + cx, img.Rect.Min.Y + ry⟩],
    s.closed⟩, ?_, ?_⟩
  · unfold renderPixel Paletted.SetColorIndex
    rw [if_neg (not_not.2 hp)]
    dsimp only at hb ⊢
    rw [if_pos hb, if_pos hp]
    rfl
  · refine ⟨?_, ?_, ?_, ?_, ?_, ?_, ?_, h7⟩
    · dsimp only
      rw [h1]
      push_cast
      ring
    · dsimp only
      rw [h1, h2, ← Nat.add_assoc, List.range_succ, List.map_append]
      simp
    · dsimp only
      rw [List.length_append, hlen]
      rfl
    · dsimp only
      rw [List.nodup_append]
      refine ⟨h3, List.nodup_singleton _, ?_⟩
      intro a ha hb'
      rw [List.mem_singleton] at hb'
      subst hb'
      exact hnew ((h4 _).1 ha)
    · intro pt
      dsimp only
      rw [List.mem_append, List.mem_singleton, h4, rendered_succ img cx ry hp]
    · intro pt hpt
      dsimp only
      rw [rendered_succ img cx ry hp] at hpt
      by_cases he : pt = ⟨img.Rect.Min.X + cx, img.Rect.Min.Y + ry⟩
      · subst he
        exact Function.update_same _ _ _
      · rcases hpt with hpt | hpt
        · have hne : img.cell pt ≠ img.cell ⟨img.Rect.Min.X + cx, img.Rect.Min.Y + ry⟩ :=
            fun hc => he (cell_inj hw hpt.1 hp hc)
          rw [Function.update_noteq hne]
          exact h5 pt hpt
        · exact absurd hpt he
    · intro a ha
      dsimp only
      have hne : a ≠ img.cell ⟨img.Rect.Min.X + cx, img.Rect.Min.Y + ry⟩ :=
        ha ⟨img.Rect.Min.X + cx, img.Rect.Min.Y + ry⟩
          ((rendered_succ img cx ry hp _).2 (Or.inr rfl))
      rw [Function.update_noteq hne]
      exact h6 a (fun pt hpt => ha pt ((rendered_succ img cx ry hp pt).2 (Or.inl hpt)))

/-- The invariant after the last row of a column is the invariant before the
first row of the next column. -/
theorem RenderInv_column {img : Paletted} {fractal : Int → Int → Nat} {mem0 : Mem} {cx : Nat}
    {s : RenderState} (hs : RenderInv img fractal mem0 cx img.Rect.Dy.toNat s) :
    RenderInv img fractal mem0 (cx + 1) 0 s := by
  have e : (cx + 1) * img.Rect.Dy.toNat + 0 = cx * img.Rect.Dy.toNat + img.Rect.Dy.toNat := by
    ring
  unfold RenderInv at hs ⊢
  simp only [rendered_column] at hs
  rw [e]
  exact hs

/-- The invariant holds before the first round of `Render`. -/
theorem RenderInv_init (img : Paletted) (fractal : Int → Int → Nat) (mem0 : Mem) :
    RenderInv img fractal mem0 0 0 ⟨mem0, 0, [], [], false⟩ := by
  have hno : ∀ pt, ¬ rendered img 0 0 pt := by
    intro pt
    unfold rendered Point.In
    push_cast
    omega
  refine ⟨by simp, by simp, by simp, List.nodup_nil, ?_, ?_, ?_, rfl⟩
  · intro pt
    simp [hno pt]
  · intro pt h
    exact absurd h (hno pt)
  · intro a _
    rfl

/-- The inner loop of `Render` takes the invariant from one column to the
next. -/
theorem renderColumn_inv {img : Paletted} (hw : img.WF) (fractal : Int → Int → Nat) (mem0 : Mem)
    {cx : Nat} (hcx : cx < img.Rect.Dx.toNat)
    {s : RenderState} (hs : RenderInv img fractal mem0 cx 0 s) :
    ∃ s', forRange img.Rect.Min.Y img.Rect.Max.Y
        (fun y s => renderPixel img fractal (img.Rect.Min.X + cx) y s) s = .ok s' ∧
      RenderInv img fractal mem0 (cx + 1) 0 s' := by
  obtain ⟨s', h1, h2⟩ := forLoop_inv
    (fun y s => renderPixel img fractal (img.Rect.Min.X + cx) y s)
    (fun j t => RenderInv img fractal mem0 cx j t) img.Rect.Min.Y img.Rect.Dy.toNat 0 s hs
    (fun j t _ hj ht => renderPixel_inv hw fractal mem0 hcx (by omega) ht)
  refine ⟨s', ?_, RenderInv_column (by simpa using h2)⟩
  unfold forRange
  simpa [Rectangle.Dy] using h1

/-- What `Render` does on a well-formed image: it does not panic, closes the
channel after sending `1, 2, ..., w*h`, stores each pixel of the bounds once,
with the value of the fractal, and leaves every other cell as it was. -/
theorem Render_spec {img : Paletted} (hw : img.WF) (fractal : Int → Int → Nat) (mem0 : Mem) :
    ∃ s, Render img fractal mem0 = .ok s ∧ s.closed = true ∧
      s.num_of_pix = (img.Rect.Dx.toNat * img.Rect.Dy.toNat : Nat) ∧
      s.sent = (List.range (img.Rect.Dx.toNat * img.Rect.Dy.toNat)).map
        (fun k : Nat => (k : Int) + 1) ∧
      s.writes.length = img.Rect.Dx.toNat * img.Rect.Dy.toNat ∧
      s.writes.Nodup ∧
      (∀ pt, pt ∈ s.writes ↔ pt.In img.Rect) ∧
      (∀ pt, pt.In img.Rect → s.mem (img.cell pt) = fractal pt.X pt.Y) ∧
      (∀ a, (∀ pt, pt.In img.Rect → a ≠ img.cell pt) → s.mem a = mem0 a) := by
  obtain ⟨s', h1, h2⟩ := forLoop_inv
    (fun x s => forRange img.Rect.Min.Y img.Rect.Max.Y
      (fun y s => renderPixel img fractal x y s) s)
    (fun j t => RenderInv img fractal mem0 j 0 t) img.Rect.Min.X img.Rect.Dx.toNat 0
    ⟨mem0, 0, [], [], false⟩ (RenderInv_init img fractal mem0)
    (fun j t _ hj ht => renderColumn_inv hw fractal mem0 (by omega) ht)
  have h1' : forRange img.Rect.Min.X img.Rect.Max.X
      (fun x s => forRange img.Rect.Min.Y img.Rect.Max.Y
        (fun y s => renderPixel img fractal x y s) s)
      ⟨mem0, 0, [], [], false⟩ = .ok s' := by
    unfold forRange
    simpa [Rectangle.Dx] using h1
  simp only [Nat.zero_add] at h2
  obtain ⟨g1, g2, g0, g3, g4, g5, g6, -⟩ := h2
  simp only [rendered_all, Nat.add_zero] at g1 g2 g0 g4 g5 g6
  refine ⟨{ s' with closed := true }, ?_, rfl, g1, g2, g0, g3, g4, g5, g6⟩
  unfold Render
  rw [h1']


/-- The values `1, 2, ..., n` are strictly increasing and end at `n`. -/
theorem sent_facts (n : Nat) :
    List.Pairwise (fun a b : Int => a < b)
      ((List.range n).map (fun k : Nat => (k : Int) + 1)) ∧
    ((List.range n).map (fun k : Nat => (k : Int) + 1)).getLast? =
      (if n = 0 then none else some (n : Int)) ∧
    ((List.range n).map (fun k : Nat => (k : Int) + 1)).length = n := by
  refine ⟨?_, ?_, by simp⟩
  · rw [List.pairwise_map]
    exact (List.pairwise_lt_range n).imp (fun h => by omega)
  · cases n with
    | zero => rfl
    | succ m => simp [List.range_succ]

/-! ## Claims about `Render` -/

/-- C8. For every well-formed region of `w` columns and `h` rows, `Render`
runs to its end and closes the channel after sending exactly the values
`1, 2, ..., w*h`, one for each of the `w*h` pixel writes: the sequence is
strictly increasing, its last value is `w*h` (it is empty when the region has
no pixel), and nothing else is sent. -/
theorem Render_progress (img : Paletted) (fractal : Int → Int → Nat) (mem : Mem)
    (hw : img.WF) :
    ∃ s, Render img fractal mem = .ok s ∧ s.closed = true ∧
      s.sent = (List.range (img.Rect.Dx.toNat * img.Rect.Dy.toNat)).map
        (fun k : Nat => (k : Int) + 1) ∧
      List.Pairwise (fun a b : Int => a < b) s.sent ∧
      s.sent.getLast? = (if img.Rect.Dx.toNat * img.Rect.Dy.toNat = 0 then none
        else some ((img.Rect.Dx.toNat * img.Rect.Dy.toNat : Nat) : Int)) ∧
      s.sent.length = img.Rect.Dx.toNat * img.Rect.Dy.toNat ∧
      s.writes.length = img.Rect.Dx.toNat * img.Rect.Dy.toNat := by
  obtain ⟨s, h1, h2, -, h4, h5, -⟩ := Render_spec hw fractal mem
  obtain ⟨f1, f2, f3⟩ := sent_facts (img.Rect.Dx.toNat * img.Rect.Dy.toNat)
  rw [← h4] at f1 f2 f3
  exact ⟨s, h1, h2, h4, f1, f2, f3, h5⟩

/-- C8, at an instance: a region of 3 columns and 2 rows sends `1, ..., 6`. -/
theorem Render_progress_witness :
    Paletted.WF ⟨⟨0, 6⟩, 3, ⟨⟨0, 0⟩, ⟨3, 2⟩⟩⟩ ∧
    ∃ s, Render ⟨⟨0, 6⟩, 3, ⟨⟨0, 0⟩, ⟨3, 2⟩⟩⟩ (fun _ _ => 7) (fun _ => 0) = .ok s ∧
      s.closed = true ∧ s.sent = [1, 2, 3, 4, 5, 6] ∧ s.sent.getLast? = some 6 := by
  refine ⟨by decide, ?_⟩
  obtain ⟨s, h1, h2, h3, -, h5, -⟩ :=
    Render_progress ⟨⟨0, 6⟩, 3, ⟨⟨0, 0⟩, ⟨3, 2⟩⟩⟩ (fun _ _ => 7) (fun _ => 0) (by decide)
  exact ⟨s, h1, h2, h3, h5⟩

/-- C9. For every well-formed region and every fractal, `Render` stores each
pixel of the region exactly once and no other coordinate, and when it has
finished the colour index stored at every `(x, y)` of the region is
`fractal.At(x, y)`. -/
theorem Render_writes (img : Paletted) (fractal : Int → Int → Nat) (mem : Mem)
    (hw : img.WF) :
    ∃ s, Render img fractal mem = .ok s ∧
      (∀ pt, pt ∈ s.writes ↔ pt.In img.Rect) ∧
      (∀ pt, pt.In img.Rect → s.writes.count pt = 1) ∧
      s.writes.Nodup ∧
      (∀ x y, (Point.mk x y).In img.Rect → img.ColorIndexAt x y s.mem = .ok (fractal x y)) := by
  obtain ⟨s, h1, -, -, -, -, h6, h7, h8, -⟩ := Render_spec hw fractal mem
  refine ⟨s, h1, h7, fun pt hp => List.count_eq_one_of_mem h6 ((h7 pt).2 hp), h6, ?_⟩
  intro x y hp
  have hb := offset_bounds hw hp
  unfold Paletted.ColorIndexAt
  rw [if_neg (not_not.2 hp)]
  dsimp only at hb ⊢
  rw [if_pos hb]
  exact congrArg Except.ok (h8 ⟨x, y⟩ hp)

/-- C9, at an instance: a region of 3 columns and 2 rows inside an image with
rows of 5 pixels. -/
theorem Render_writes_witness :
    Paletted.WF ⟨⟨1, 9⟩, 5, ⟨⟨1, 0⟩, ⟨4, 2⟩⟩⟩ ∧
    ∃ s, Render ⟨⟨1, 9⟩, 5, ⟨⟨1, 0⟩, ⟨4, 2⟩⟩⟩ (fun x y => (10 * x + y).toNat) (fun _ => 0) = .ok s ∧
      (∀ pt, pt ∈ s.writes ↔ pt.In ⟨⟨1, 0⟩, ⟨4, 2⟩⟩) ∧
      (∀ pt, pt.In ⟨⟨1, 0⟩, ⟨4, 2⟩⟩ → s.writes.count pt = 1) ∧
      Paletted.ColorIndexAt ⟨⟨1, 9⟩, 5, ⟨⟨1, 0⟩, ⟨4, 2⟩⟩⟩ 3 1 s.mem = .ok 31 := by
  refine ⟨by decide, ?_⟩
  obtain ⟨s, h1, h2, h3, -, h5⟩ :=
    Render_writes ⟨⟨1, 9⟩, 5, ⟨⟨1, 0⟩, ⟨4, 2⟩⟩⟩ (fun x y => (10 * x + y).toNat) (fun _ => 0)
      (by decide)
  exact ⟨s, h1, h2, h3, h5 3 1 (by decide)⟩

/-! ## Sub-images and the shared pixel array -/

/-- A non-empty sub-image lies inside its parent. -/
theorem SubImage_inside {p q : Paletted} {r : Rectangle} (h : p.SubImage r = .ok q)
    (hne : ¬ q.Rect.Empty) :
    p.Rect.Min.X ≤ q.Rect.Min.X ∧ p.Rect.Min.Y ≤ q.Rect.Min.Y ∧
    q.Rect.Max.X ≤ p.Rect.Max.X ∧ q.Rect.Max.Y ≤ p.Rect.Max.Y ∧
    q.Rect.Min.X < q.Rect.Max.X ∧ q.Rect.Min.Y < q.Rect.Max.Y := by
  have h1 := (SubImage_spec h).1
  rw [h1] at hne
  have h2 := Intersect_of_not_empty r p.Rect hne
  rw [h1]
  rw [h2] at hne ⊢
  unfold Rectangle.Empty at hne
  dsimp only at hne ⊢
  omega

/-- A sub-image of a well-formed image is well-formed. -/
theorem SubImage_WF {p q : Paletted} {r : Rectangle} (hp : p.WF) (h : p.SubImage r = .ok q) :
    q.WF := by
  by_cases hne : q.Rect.Empty
  · exact Or.inl hne
  · right
    obtain ⟨i1, i2, i3, i4, i5, i6⟩ := SubImage_inside h hne
    obtain ⟨hS, i, hi, -, hpix⟩ := (SubImage_spec h).2 hne
    rcases hp with he | ⟨hs, hl⟩
    · unfold Rectangle.Empty at he; omega
    · unfold Rectangle.Dx at hs hl ⊢
      unfold Rectangle.Dy at hl ⊢
      unfold Paletted.PixOffset at hi
      rw [hS, hpix]
      dsimp only
      have hSt : 0 ≤ p.Stride := by omega
      have e : (q.Rect.Max.Y - q.Rect.Min.Y - 1) * p.Stride +
          (q.Rect.Min.Y - p.Rect.Min.Y) * p.Stride ≤
          (p.Rect.Max.Y - p.Rect.Min.Y - 1) * p.Stride := by
        rw [← add_mul]
        exact mul_le_mul_of_nonneg_right (by omega) hSt
      have e2 := mul_nonneg (by omega : 0 ≤ q.Rect.Min.Y - p.Rect.Min.Y) hSt
      constructor <;> omega

/-- A pixel of a sub-image lies in the same cell of the pixel array as the
same pixel of the parent. -/
theorem SubImage_cell {p q : Paletted} {r : Rectangle} (hp : p.WF) (h : p.SubImage r = .ok q)
    {pt : Point} (hpt : pt.In q.Rect) : q.cell pt = p.cell pt := by
  have hne := not_empty_of_in hpt
  obtain ⟨i1, i2, i3, i4, i5, i6⟩ := SubImage_inside h hne
  obtain ⟨hS, i, hi, -, hpix⟩ := (SubImage_spec h).2 hne
  have hb := offset_bounds (SubImage_WF hp h) hpt
  have hpt' : pt.In p.Rect := by unfold Point.In at hpt ⊢; omega
  have hb' := offset_bounds hp hpt'
  unfold Paletted.cell
  unfold Paletted.PixOffset at hi hb hb' ⊢
  rw [hS] at hb ⊢
  rw [hpix]
  dsimp only
  have e : (pt.Y - p.Rect.Min.Y) * p.Stride =
      (pt.Y - q.Rect.Min.Y) * p.Stride + (q.Rect.Min.Y - p.Rect.Min.Y) * p.Stride := by ring
  omega

/-- Two different strips of `SplitImage` have no point in common. -/
theorem strips_disjoint {img : Paletted} {n : Int} {strips : List Paletted} (hw : img.WF)
    (h1 : 1 ≤ n) (h2 : n ≤ img.Rect.Dx) (hs : SplitImage img n = .ok strips)
    {i j : Nat} (hi : i < strips.length) (hj : j < strips.length) (hij : i < j) (pt : Point) :
    ¬ (pt.In strips[i].Rect ∧ pt.In strips[j].Rect) := by
  obtain ⟨strips', hs', hlen, hsub⟩ := SplitImage_ok hw (by omega : 0 ≤ n)
  rw [hs] at hs'
  injection hs' with hs'
  subst hs'
  have hin : (i : Int) < n := by omega
  have hjn : (j : Int) < n := by omega
  rw [strip_points i h1 h2 hin (hsub i hi), strip_points j h1 h2 hjn (hsub j hj)]
  have hs0 := (step_facts h1 h2).1
  have e := mul_le_mul_of_nonneg_right (by omega : (i : Int) + 1 ≤ j)
    (by omega : 0 ≤ img.Rect.Dx / n)
  rw [if_neg (by omega)]
  omega

/-- A point of a sub-image is a point of its parent. -/
theorem SubImage_in {p q : Paletted} {r : Rectangle} (h : p.SubImage r = .ok q)
    {pt : Point} (hpt : pt.In q.Rect) : pt.In p.Rect := by
  rw [(SubImage_spec h).1, in_Intersect] at hpt
  exact hpt.2

/-- C10. On a well-formed image, `Render` run on a sub-image changes no cell of
the shared pixel array but the cells of the pixels of that sub-image, so every
pixel of the image outside the region keeps its colour index; and for two
different strips of `SplitImage` (`n ≥ 2`, `W ≥ n`) the two runs of `Render`
store no coordinate in common, and no cell of the pixel array in common. -/
theorem Render_frame (img : Paletted) (hw : img.WF) :
    (∀ (r : Rectangle) (q : Paletted) (fractal : Int → Int → Nat) (mem : Mem),
      img.SubImage r = .ok q →
      ∃ s, Render q fractal mem = .ok s ∧
        (∀ a, (∀ pt, pt.In q.Rect → a ≠ q.cell pt) → s.mem a = mem a) ∧
        (∀ x y, ¬ (Point.mk x y).In q.Rect →
          img.ColorIndexAt x y s.mem = img.ColorIndexAt x y mem)) ∧
    (∀ (n : Int) (strips : List Paletted), 2 ≤ n → n ≤ img.Rect.Dx →
      SplitImage img n = .ok strips →
      ∀ (i j : Nat) (hi : i < strips.length) (hj : j < strips.length), i ≠ j →
      ∀ (f g : Int → Int → Nat) (mem1 mem2 : Mem),
        ∃ s1 s2, Render strips[i] f mem1 = .ok s1 ∧ Render strips[j] g mem2 = .ok s2 ∧
          (∀ pt, ¬ (pt ∈ s1.writes ∧ pt ∈ s2.writes)) ∧
          (∀ p1 p2, p1 ∈ s1.writes → p2 ∈ s2.writes → strips[i].cell p1 ≠ strips[j].cell p2)) := by
  constructor
  · intro r q fractal mem hq
    have hqw := SubImage_WF hw hq
    obtain ⟨s, h1, -, -, -, -, -, -, -, h9⟩ := Render_spec hqw fractal mem
    refine ⟨s, h1, h9, ?_⟩
    intro x y hout
    unfold Paletted.ColorIndexAt
    by_cases hp : (Point.mk x y).In img.Rect
    · rw [if_neg (not_not.2 hp), if_neg (not_not.2 hp)]
      have hb := offset_bounds hw hp
      dsimp only at hb ⊢
      rw [if_pos hb, if_pos hb]
      refine congrArg Except.ok (h9 _ ?_)
      intro pt hpt hc
      have hcell : img.cell ⟨x, y⟩ = img.cell pt := by
        rw [← SubImage_cell hw hq hpt]
        exact hc
      have := cell_inj hw hp (SubImage_in hq hpt) hcell
      rw [this] at hout
      exact hout hpt
    · rw [if_pos hp, if_pos hp]
  · intro n strips hn2 hnW hs i j hi hj hij f g mem1 mem2
    obtain ⟨strips', hs', hlen, hsub⟩ := SplitImage_ok hw (by omega : 0 ≤ n)
    rw [hs] at hs'
    injection hs' with hs'
    subst hs'
    have hwi := SubImage_WF hw (hsub i hi)
    have hwj := SubImage_WF hw (hsub j hj)
    obtain ⟨s1, a1, -, -, -, -, -, a7, -⟩ := Render_spec hwi f mem1
    obtain ⟨s2, b1, -, -, -, -, -, b7, -⟩ := Render_spec hwj g mem2
    have hdis : ∀ pt : Point, ¬ (pt.In strips[i].Rect ∧ pt.In strips[j].Rect) := by
      intro pt ⟨c1, c2⟩
      rcases Nat.lt_or_gt_of_ne hij with h | h
      · exact strips_disjoint hw (by omega) hnW hs hi hj h pt ⟨c1, c2⟩
      · exact strips_disjoint hw (by omega) hnW hs hj hi h pt ⟨c2, c1⟩
    refine ⟨s1, s2, a1, b1, ?_, ?_⟩
    · intro pt ⟨c1, c2⟩
      exact hdis pt ⟨(a7 pt).1 c1, (b7 pt).1 c2⟩
    · intro p1 p2 c1 c2 hc
      have d1 := (a7 p1).1 c1
      have d2 := (b7 p2).1 c2
      rw [SubImage_cell hw (hsub i hi) d1, SubImage_cell hw (hsub j hj) d2] at hc
      have := cell_inj hw (SubImage_in (hsub i hi) d1) (SubImage_in (hsub j hj) d2) hc
      subst this
      exact hdis p1 ⟨d1, d2⟩

/-- C10, at an instance: the two strips of a 4 by 2 image. -/
theorem Render_frame_witness :
    Paletted.WF ⟨⟨0, 8⟩, 4, ⟨⟨0, 0⟩, ⟨4, 2⟩⟩⟩ ∧
    SplitImage ⟨⟨0, 8⟩, 4, ⟨⟨0, 0⟩, ⟨4, 2⟩⟩⟩ 2 =
      .ok [⟨⟨0, 8⟩, 4, ⟨⟨0, 0⟩, ⟨2, 2⟩⟩⟩, ⟨⟨2, 6⟩, 4, ⟨⟨2, 0⟩, ⟨4, 2⟩⟩⟩] ∧
    ∃ s1 s2,
      Render ⟨⟨0, 8⟩, 4, ⟨⟨0, 0⟩, ⟨2, 2⟩⟩⟩ (fun _ _ => 1) (fun _ => 0) = .ok s1 ∧
      Render ⟨⟨2, 6⟩, 4, ⟨⟨2, 0⟩, ⟨4, 2⟩⟩⟩ (fun _ _ => 2) (fun _ => 0) = .ok s2 ∧
      (∀ pt, ¬ (pt ∈ s1.writes ∧ pt ∈ s2.writes)) := by
  refine ⟨by decide, rfl, ?_⟩
  obtain ⟨s1, s2, h1, h2, h3, -⟩ :=
    (Render_frame ⟨⟨0, 8⟩, 4, ⟨⟨0, 0⟩, ⟨4, 2⟩⟩⟩ (by decide)).2 2
      [⟨⟨0, 8⟩, 4, ⟨⟨0, 0⟩, ⟨2, 2⟩⟩⟩, ⟨⟨2, 6⟩, 4, ⟨⟨2, 0⟩, ⟨4, 2⟩⟩⟩]
      (by decide) (by decide) rfl 0 1 (by decide) (by decide) (by decide)
      (fun _ _ => 1) (fun _ _ => 2) (fun _ => 0) (fun _ => 0)
  exact ⟨s1, s2, h1, h2, h3⟩

/-! ## Facts about the coordinator loop -/

/-- One pass adds the first value of every open channel, leaves `done` set
only when every channel is closed, and takes the first value off every
channel. -/
theorem passLoop_eq : ∀ (channels : List Chan) (pp : Int) (done : Bool),
    passLoop channels pp done =
      (pp + passSum channels 0, done && channels.all List.isEmpty, channels.map List.tail) := by
  intro channels
  induction channels with
  | nil => intro pp done; simp [passLoop, passSum]
  | cons ch rest ih =>
    intro pp done
    cases ch with
    | nil =>
      simp only [passLoop, recv, ih, passSum, List.map_cons, List.sum_cons, List.all_cons,
        List.isEmpty_nil, Bool.true_and, List.tail_nil, List.getD_nil, zero_add]
    | cons v vs =>
      simp only [passLoop, recv, ih, passSum, List.map_cons, List.sum_cons, List.all_cons,
        List.isEmpty_cons, Bool.false_and, Bool.and_false, List.tail_cons]
      simp [add_assoc]

theorem maxLen_nil : maxLen [] = 0 := rfl

theorem maxLen_cons (ch : Chan) (rest : List Chan) :
    maxLen (ch :: rest) = max ch.length (maxLen rest) := rfl

theorem length_le_maxLen {channels : List Chan} {ch : Chan} (h : ch ∈ channels) :
    ch.length ≤ maxLen channels := by
  induction channels with
  | nil => cases h
  | cons c rest ih =>
    rw [maxLen_cons]
    rcases List.mem_cons.1 h with h | h
    · subst h; exact le_max_left _ _
    · exact le_trans (ih h) (le_max_right _ _)

theorem exists_length_eq_maxLen {channels : List Chan} (h : 0 < maxLen channels) :
    ∃ ch ∈ channels, ch.length = maxLen channels := by
  induction channels with
  | nil => exact absurd h (by simp [maxLen_nil])
  | cons c rest ih =>
    rw [maxLen_cons] at h ⊢
    by_cases hc : maxLen rest ≤ c.length
    · exact ⟨c, List.mem_cons_self _ _, (max_eq_left hc).symm⟩
    · have hr : max c.length (maxLen rest) = maxLen rest := max_eq_right (by omega)
      rw [hr] at h ⊢
      obtain ⟨ch, h1, h2⟩ := ih h
      exact ⟨ch, List.mem_cons_of_mem _ h1, h2⟩

theorem maxLen_eq_zero (channels : List Chan) :
    channels.all List.isEmpty = true ↔ maxLen channels = 0 := by
  induction channels with
  | nil => simp [maxLen_nil]
  | cons c rest ih =>
    rw [maxLen_cons, List.all_cons, Bool.and_eq_true, ih]
    cases c with
    | nil => simp
    | cons v vs => simp

theorem maxLen_tail (channels : List Chan) :
    maxLen (channels.map List.tail) = maxLen channels - 1 := by
  induction channels with
  | nil => rfl
  | cons c rest ih =>
    rw [List.map_cons, maxLen_cons, maxLen_cons, ih, List.length_tail]
    omega

theorem passSum_tail (channels : List Chan) (k : Nat) :
    passSum (channels.map List.tail) k = passSum channels (k + 1) := by
  unfold passSum
  rw [List.map_map]
  congr 1
  apply List.map_congr_left
  intro ch _
  cases ch <;> simp

theorem passSum_of_closed {channels : List Chan} (h : maxLen channels = 0) (k : Nat) :
    passSum channels k = 0 := by
  unfold passSum
  apply List.sum_eq_zero
  intro x hx
  obtain ⟨ch, h1, h2⟩ := List.mem_map.1 hx
  have := length_le_maxLen h1
  have : ch = [] := List.length_eq_zero.1 (by omega)
  subst this
  simpa using h2.symm

/-- With enough fuel the coordinator loop ends: it reports the sum of the
values delivered in each pass while some channel delivers, and then 0 in the
pass that finds every channel closed. -/
theorem coordinator_spec : ∀ (fuel : Nat) (channels : List Chan),
    maxLen channels + 1 ≤ fuel →
    coordinator fuel channels =
      some ((List.range (maxLen channels)).map (passSum channels) ++ [0]) := by
  intro fuel
  induction fuel with
  | zero => intro channels h; omega
  | succ fuel ih =>
    intro channels h
    unfold coordinator
    rw [passLoop_eq]
    by_cases hz : maxLen channels = 0
    · have hall := (maxLen_eq_zero channels).2 hz
      simp only [hall, Bool.and_self, hz, List.range_zero, List.map_nil, List.nil_append,
        passSum_of_closed hz, add_zero]
    · have hall : channels.all List.isEmpty = false := by
        rw [← Bool.not_eq_true, maxLen_eq_zero]
        exact hz
      simp only [hall, Bool.and_false]
      rw [ih _ (by rw [maxLen_tail]; omega), maxLen_tail]
      obtain ⟨n, hn⟩ : ∃ n, maxLen channels = n + 1 := ⟨maxLen channels - 1, by omega⟩
      rw [hn, Nat.add_sub_cancel, List.range_succ_eq_map]
      simp only [Option.map_some', List.map_cons, List.map_map, zero_add, List.cons_append]
      congr 2
      apply congrArg (· ++ [0])
      apply List.map_congr_left
      intro k _
      exact passSum_tail channels k

/-- With fewer passes than the longest channel has values plus one, the loop
has not ended. -/
theorem coordinator_none : ∀ (fuel : Nat) (channels : List Chan),
    fuel ≤ maxLen channels → coordinator fuel channels = none := by
  intro fuel
  induction fuel with
  | zero => intro channels _; rfl
  | succ fuel ih =>
    intro channels h
    unfold coordinator
    rw [passLoop_eq]
    have hall : channels.all List.isEmpty = false := by
      rw [← Bool.not_eq_true, maxLen_eq_zero]
      omega
    simp only [hall, Bool.and_false]
    rw [ih _ (by rw [maxLen_tail]; omega)]
    rfl

theorem stream_length (p : Nat) : (stream p).length = p := by
  simp [stream]

theorem stream_getD (p k : Nat) : (stream p).getD k 0 = if k < p then (k : Int) + 1 else 0 := by
  unfold stream
  by_cases h : k < p
  · rw [if_pos h, List.getD_eq_getElem _ _ (by simpa using h)]
    simp
  · rw [if_neg h, List.getD_eq_default _ _ (by simpa using h)]

theorem maxLen_streams (ps : List Nat) : maxLen (ps.map stream) = ps.foldr max 0 := by
  induction ps with
  | nil => rfl
  | cons p rest ih => rw [List.map_cons, maxLen_cons, ih, stream_length]; rfl

/-- In pass `k + 1` the streams `1, ..., p_i` deliver `k + 1` once for every
worker with more than `k` pixels. -/
theorem passSum_streams (ps : List Nat) (k : Nat) :
    passSum (ps.map stream) k = ((k : Int) + 1) * (ps.filter (fun p => k + 1 ≤ p)).length := by
  unfold passSum
  induction ps with
  | nil => simp
  | cons p rest ih =>
    rw [List.map_cons, List.map_cons, List.sum_cons, ih, stream_getD, List.filter_cons]
    by_cases h : k < p
    · rw [if_pos h, if_pos (by simp only [decide_eq_true_eq]; omega)]
      simp only [List.length_cons]
      push_cast
      ring
    · rw [if_neg h, if_neg (by simp only [decide_eq_true_eq]; omega)]
      ring

/-- The reports of the coordinator on the streams `1, ..., p_i`. -/
theorem coordinator_streams (ps : List Nat) (fuel : Nat) (hf : ps.foldr max 0 + 1 ≤ fuel) :
    coordinator fuel (ps.map stream) =
      some ((List.range (ps.foldr max 0)).map
        (fun k : Nat => ((k : Int) + 1) * (ps.filter (fun p => k + 1 ≤ p)).length) ++ [0]) := by
  rw [coordinator_spec fuel _ (by rw [maxLen_streams]; exact hf), maxLen_streams]
  congr 2
  apply List.map_congr_left
  intro k _
  exact passSum_streams ps k

/-- On well-formed strips every worker sends `1, ..., p`, with `p` the number
of pixels of its strip. -/
theorem workerStreams_spec (fractal : Int → Int → Nat) (mem : Mem) :
    ∀ strips : List Paletted, (∀ s ∈ strips, s.WF) →
      workerStreams fractal mem strips =
        .ok (strips.map (fun s => stream (s.Rect.Dx.toNat * s.Rect.Dy.toNat))) := by
  intro strips
  induction strips with
  | nil => intro _; rfl
  | cons s rest ih =>
    intro h
    obtain ⟨r, h1, -, -, h4, -⟩ := Render_spec (h s (List.mem_cons_self _ _)) fractal mem
    unfold workerStreams
    rw [h1, ih (fun t ht => h t (List.mem_cons_of_mem _ ht))]
    dsimp only
    rw [h4]
    rfl

/-- The progress reports of `main` on a well-formed image are the reports of
the coordinator on the streams `1, ..., p_i` of the strips. -/
theorem mainReports_eq {img : Paletted} (hw : img.WF) {cpus : Int} (hc : 0 ≤ cpus)
    (fractal : Int → Int → Nat) (mem : Mem) (fuel : Nat) :
    ∃ strips : List Paletted, SplitImage img cpus = .ok strips ∧
      mainReports img cpus fractal mem fuel =
        .ok (coordinator fuel
          ((strips.map (fun s => s.Rect.Dx.toNat * s.Rect.Dy.toNat)).map stream)) := by
  obtain ⟨strips, h1, -, h3⟩ := SplitImage_ok hw hc
  refine ⟨strips, h1, ?_⟩
  have hwf : ∀ s ∈ strips, s.WF := by
    intro s hs
    obtain ⟨i, hi, rfl⟩ := List.getElem_of_mem hs
    exact SubImage_WF hw (h3 i hi)
  unfold mainReports
  rw [h1]
  dsimp only
  rw [workerStreams_spec fractal mem strips hwf, List.map_map]
  rfl

/-! ## Claims about the coordinator loop -/

/-- C11, on the code. For the 100 by 100 image split into 4 regions the
coordinator loop makes 2501 passes; it reports 10000, the pixel count of the
image, in pass 2500, and its last report, in pass 2501, is 0. -/
theorem main_last_report :
    NewPaletted (Rect 0 0 100 100) = .ok ⟨⟨0, 10000⟩, 100, ⟨⟨0, 0⟩, ⟨100, 100⟩⟩⟩ ∧
    ∃ reports : List Int,
      mainReports ⟨⟨0, 10000⟩, 100, ⟨⟨0, 0⟩, ⟨100, 100⟩⟩⟩ 4
        (fun x y => (Mandelbrot.mk ⟨-2, -1⟩ ⟨1, 1⟩ ⟨⟨0, 0⟩, ⟨100, 100⟩⟩ 2 50).At exactArith x y)
        (fun _ => 0) 2501 = .ok (some reports) ∧
      reports.length = 2501 ∧ reports[2499]? = some 10000 ∧ reports.getLast? = some 0 := by
  refine ⟨rfl, ?_⟩
  obtain ⟨strips, h1, h2⟩ := @mainReports_eq
    ⟨⟨0, 10000⟩, 100, ⟨⟨0, 0⟩, ⟨100, 100⟩⟩⟩ (by decide) 4 (by decide)
    (fun x y => (Mandelbrot.mk ⟨-2, -1⟩ ⟨1, 1⟩ ⟨⟨0, 0⟩, ⟨100, 100⟩⟩ 2 50).At exactArith x y)
    (fun _ => 0) 2501
  have hs : SplitImage ⟨⟨0, 10000⟩, 100, ⟨⟨0, 0⟩, ⟨100, 100⟩⟩⟩ 4 =
      .ok [⟨⟨0, 10000⟩, 100, ⟨⟨0, 0⟩, ⟨25, 100⟩⟩⟩, ⟨⟨25, 9975⟩, 100, ⟨⟨25, 0⟩, ⟨50, 100⟩⟩⟩,
        ⟨⟨50, 9950⟩, 100, ⟨⟨50, 0⟩, ⟨75, 100⟩⟩⟩, ⟨⟨75, 9925⟩, 100, ⟨⟨75, 0⟩, ⟨100, 100⟩⟩⟩] := rfl
  rw [hs] at h1
  injection h1 with h1
  subst h1
  have hp : List.map (fun s : Paletted => s.Rect.Dx.toNat * s.Rect.Dy.toNat)
      [⟨⟨0, 10000⟩, 100, ⟨⟨0, 0⟩, ⟨25, 100⟩⟩⟩, ⟨⟨25, 9975⟩, 100, ⟨⟨25, 0⟩, ⟨50, 100⟩⟩⟩,
        ⟨⟨50, 9950⟩, 100, ⟨⟨50, 0⟩, ⟨75, 100⟩⟩⟩, ⟨⟨75, 9925⟩, 100, ⟨⟨75, 0⟩, ⟨100, 100⟩⟩⟩] =
      [2500, 2500, 2500, 2500] := by decide
  rw [hp, coordinator_streams _ _ (by decide)] at h2
  refine ⟨_, h2, ?_, ?_, ?_⟩
  · simp
  · rw [List.getElem?_append_left (by simp), List.getElem?_map, List.getElem?_range (by simp)]
    simp
  · simp

/-- C12, on the code. For the 3 by 1 image split into 2 regions the workers
send `1` and `1, 2`.  In pass 2 the first channel is found closed and the
coordinator reports 2, the value of the second worker alone, where the sum of
the latest counts is `1 + 2 = 3`; in pass 3 it reports 0, where that sum is
still 3. -/
theorem main_reports_drop_finished :
    SplitImage ⟨⟨0, 3⟩, 3, ⟨⟨0, 0⟩, ⟨3, 1⟩⟩⟩ 2 =
      .ok [⟨⟨0, 3⟩, 3, ⟨⟨0, 0⟩, ⟨1, 1⟩⟩⟩, ⟨⟨1, 2⟩, 3, ⟨⟨1, 0⟩, ⟨3, 1⟩⟩⟩] ∧
    workerStreams (fun _ _ => 0) (fun _ => 0)
      [⟨⟨0, 3⟩, 3, ⟨⟨0, 0⟩, ⟨1, 1⟩⟩⟩, ⟨⟨1, 2⟩, 3, ⟨⟨1, 0⟩, ⟨3, 1⟩⟩⟩] = .ok [[1], [1, 2]] ∧
    mainReports ⟨⟨0, 3⟩, 3, ⟨⟨0, 0⟩, ⟨3, 1⟩⟩⟩ 2 (fun _ _ => 0) (fun _ => 0) 3 =
      .ok (some [2, 2, 0]) ∧
    [claimedAggregate [[1], [1, 2]] 1, claimedAggregate [[1], [1, 2]] 2,
      claimedAggregate [[1], [1, 2]] 3] = [2, 3, 3] :=
  ⟨rfl, rfl, rfl, by decide⟩

/-- C13, on the code. For the 5 by 1 image split into 2 regions the workers
send `1, 2` and `1, 2, 3`, and the coordinator reports 2, 4, 3, 0: the reports
fall when the first worker has finished, and again to 0 in the last pass. -/
theorem main_reports_not_monotone :
    mainReports ⟨⟨0, 5⟩, 5, ⟨⟨0, 0⟩, ⟨5, 1⟩⟩⟩ 2 (fun _ _ => 0) (fun _ => 0) 4 =
      .ok (some [2, 4, 3, 0]) ∧
    ¬ List.Pairwise (fun a b : Int => a ≤ b) [2, 4, 3, 0] :=
  ⟨rfl, by decide⟩

/-- C14. For every finite family of worker streams the coordinator loop
terminates: with `P` the number of values of the longest stream plus one, it
ends after exactly `P` passes whenever it is given at least that many, and it
has not ended after fewer.  Pass `k` finds a channel closed exactly when the
channel has fewer than `k` values: in pass `P` every channel is closed, and in
every pass before some channel still delivers a value. -/
theorem coordinator_terminates (channels : List Chan) :
    ∃ reports : List Int,
      (∀ fuel, reports.length ≤ fuel → coordinator fuel channels = some reports) ∧
      (∀ fuel, fuel < reports.length → coordinator fuel channels = none) ∧
      (∀ ch ∈ channels, ch.length < reports.length) ∧
      (∀ k, 1 ≤ k → k < reports.length → ∃ ch ∈ channels, k ≤ ch.length) := by
  refine ⟨(List.range (maxLen channels)).map (passSum channels) ++ [0], ?_, ?_, ?_, ?_⟩
  · intro fuel h
    exact coordinator_spec fuel channels (by simpa using h)
  · intro fuel h
    exact coordinator_none fuel channels (by simp at h; omega)
  · intro ch hch
    have := length_le_maxLen hch
    simp
    omega
  · intro k h1 h2
    simp at h2
    obtain ⟨ch, hc1, hc2⟩ := @exists_length_eq_maxLen channels (by omega)
    exact ⟨ch, hc1, by omega⟩

/-- C14, at an instance: the channels `1` and `1, 2`: three passes, not two. -/
theorem coordinator_terminates_witness :
    ∃ reports : List Int,
      (∀ fuel, reports.length ≤ fuel → coordinator fuel [[1], [1, 2]] = some reports) ∧
      (∀ fuel, fuel < reports.length → coordinator fuel [[1], [1, 2]] = none) ∧
      reports = [2, 2, 0] := by
  obtain ⟨reports, h1, h2, -, -⟩ := coordinator_terminates [[1], [1, 2]]
  refine ⟨reports, h1, h2, ?_⟩
  have h3 : coordinator 3 [[1], [1, 2]] = some [2, 2, 0] := rfl
  by_cases hl : reports.length ≤ 3
  · rw [h1 3 hl] at h3
    injection h3
  · rw [h2 3 (by omega)] at h3
    cases h3

/-- C19. With worker `i` sending `1, 2, ..., p_i` and then closing, the
coordinator loop makes exactly `max_i p_i + 1` passes (it ends with that many
and has not ended with fewer); in pass `k ≤ max_i p_i` it reports `k` times the
number of workers with `p_i ≥ k`, and in the last pass it reports 0. -/
theorem coordinator_reports (ps : List Nat) :
    ∃ reports : List Int,
      (∀ fuel, ps.foldr max 0 + 1 ≤ fuel → coordinator fuel (ps.map stream) = some reports) ∧
      (∀ fuel, fuel ≤ ps.foldr max 0 → coordinator fuel (ps.map stream) = none) ∧
      reports.length = ps.foldr max 0 + 1 ∧
      (∀ k, 1 ≤ k → k ≤ ps.foldr max 0 →
        reports[k - 1]? = some ((k : Int) * (ps.filter (fun p => k ≤ p)).length)) ∧
      reports[ps.foldr max 0]? = some 0 ∧ reports.getLast? = some 0 := by
  refine ⟨(List.range (ps.foldr max 0)).map
    (fun k : Nat => ((k : Int) + 1) * (ps.filter (fun p => k + 1 ≤ p)).length) ++ [0],
    fun fuel h => coordinator_streams ps fuel h, ?_, by simp, ?_, ?_, by simp⟩
  · intro fuel h
    exact coordinator_none fuel _ (by rw [maxLen_streams]; exact h)
  · intro k h1 h2
    rw [List.getElem?_append_left (by simp; omega), List.getElem?_map,
      List.getElem?_range (by omega)]
    obtain ⟨j, rfl⟩ : ∃ j, k = j + 1 := ⟨k - 1, by omega⟩
    simp
  · rw [List.getElem?_append_right (by simp)]
    simp

/-- C19, at an instance: two workers with 1 and 2 pixels: three passes, with
the reports `1 * 2`, `2 * 1` and 0. -/
theorem coordinator_reports_witness :
    ∃ reports : List Int,
      coordinator 3 [[1], [1, 2]] = some reports ∧ reports.length = 3 ∧
      reports[0]? = some 2 ∧ reports[1]? = some 2 ∧ reports[2]? = some 0 ∧
      coordinator 2 [[1], [1, 2]] = none := by
  obtain ⟨reports, h1, h2, h3, h4, h5, -⟩ := coordinator_reports [1, 2]
  exact ⟨reports, h1 3 (by decide), h3, h4 1 (by decide) (by decide),
    h4 2 (by decide) (by decide), h5, h2 2 (by decide)⟩

/-! ## More facts about `Mandelbrot.At` -/

theorem At_eq_uint8_itr {F : Type} (A : Arith F) (m : Mandelbrot F) (X Y : Int) :
    m.At A X Y = uint8 (m.itr A X Y) := rfl

/-- The loop counter never decreases. -/
theorem loop_ge {F : Type} (A : Arith F) (m : Mandelbrot F) (c : F × F) :
    ∀ (fuel : Nat) (z : F × F) (itr : Int), itr ≤ m.loop A c fuel z itr := by
  intro fuel
  induction fuel with
  | zero => intro z itr; exact le_refl _
  | succ fuel ih =>
    intro z itr
    unfold Mandelbrot.loop
    split_ifs with hc
    · have := ih (A.step c z) (itr + 1)
      omega
    · exact le_refl _

theorem itr_nonneg {F : Type} (A : Arith F) (m : Mandelbrot F) (X Y : Int) :
    0 ≤ m.itr A X Y :=
  loop_ge A m _ _ _ 0

theorem itr_le {F : Type} (A : Arith F) (m : Mandelbrot F) (X Y : Int)
    (hM : 0 ≤ m.MaxIterations) : m.itr A X Y ≤ m.MaxIterations :=
  (loop_bounds A m _ _ _ 0 hM).2

theorem exactArith_absLt_zero {b : ℚ} (hb : 0 < b) : exactArith.absLt 0 0 b = true := by
  simp only [exactArith, decide_eq_true_eq]
  exact ⟨hb, by nlinarith⟩

/-- A pixel whose constant is `0` has the iteration count `MaxIterations`. -/
theorem itr_of_zero_constant (m : Mandelbrot ℚ) (X Y : Int) (hB : 0 < m.Bailout)
    (hM : 0 ≤ m.MaxIterations) (hc : m.constant exactArith X Y = (0, 0)) :
    m.itr exactArith X Y = m.MaxIterations := by
  obtain ⟨k, h1, -, h3, -, h5⟩ := loop_orbit m (m.constant exactArith X Y) m.MaxIterations.toNat 0
  have hk : m.itr exactArith X Y = k := by
    simp only [Nat.cast_zero] at h1
    exact h1
  rw [hk]
  rw [hc, orbit_zero] at h5
  rcases h5 with h | h
  · omega
  · rw [not_and_or] at h
    rcases h with h | h
    · exact absurd (exactArith_absLt_zero hB) h
    · omega

/-- When the first test of the loop passes and `MaxIterations ≥ 1`, one round
at least is made. -/
theorem one_le_itr {F : Type} (A : Arith F) (m : Mandelbrot F) (X Y : Int)
    (hB : A.absLt A.zero A.zero m.Bailout = true) (hM : 1 ≤ m.MaxIterations) :
    1 ≤ m.itr A X Y := by
  obtain ⟨n, hn⟩ : ∃ n, m.MaxIterations.toNat = n + 1 := ⟨m.MaxIterations.toNat - 1, by omega⟩
  unfold Mandelbrot.itr
  rw [hn]
  unfold Mandelbrot.loop
  rw [if_pos (by simp only [hB, Bool.true_and, decide_eq_true_eq]; omega)]
  exact loop_ge A m _ _ _ _

/-! ## Claims about the colour index and the mapping of pixels -/

/-- C15, as stated, fails above 255: with `MaxIterations = 300` the pixel whose
constant is `0` has the iteration count 300 and gets the colour index
`uint8(300) = 44`, not `min(300, 255) = 255`. -/
theorem At_clamp_counterexample :
    (Mandelbrot.mk ⟨0, 0⟩ ⟨1, 1⟩ ⟨⟨0, 0⟩, ⟨10, 10⟩⟩ 2 300).itr exactArith 0 0 = 300 ∧
    (Mandelbrot.mk ⟨0, 0⟩ ⟨1, 1⟩ ⟨⟨0, 0⟩, ⟨10, 10⟩⟩ 2 300).At exactArith 0 0 = 44 ∧
    min (300 : Int) 255 = 255 := by
  have hc : (Mandelbrot.mk ⟨0, 0⟩ ⟨1, 1⟩ ⟨⟨0, 0⟩, ⟨10, 10⟩⟩ 2 300).constant exactArith 0 0 =
      (0, 0) := by
    simp [Mandelbrot.constant, exactArith]
  have hi := itr_of_zero_constant _ 0 0 (by norm_num) (by decide) hc
  refine ⟨hi, ?_, by decide⟩
  rw [At_eq_uint8_itr, hi]
  decide

/-- C15, amended. For every `MaxIterations`, and every arithmetic in the place
of `float64`, the colour index `Mandelbrot.At` returns is the low 8 bits of
the iteration count, `itr mod 256`; for `MaxIterations ≤ 255` it is the
iteration count itself, which is then also `min(itr, 255)`. -/
theorem At_low_bits {F : Type} (A : Arith F) (m : Mandelbrot F) (X Y : Int) :
    (m.At A X Y : Int) = m.itr A X Y % 256 ∧
    (m.MaxIterations ≤ 255 →
      (m.At A X Y : Int) = m.itr A X Y ∧ (m.At A X Y : Int) = min (m.itr A X Y) 255) := by
  have h0 := itr_nonneg A m X Y
  rw [At_eq_uint8_itr]
  unfold uint8
  constructor
  · omega
  · intro h
    have hle : m.itr A X Y ≤ 255 := by
      by_cases hM : 0 ≤ m.MaxIterations
      · have := itr_le A m X Y hM
        omega
      · have : m.MaxIterations.toNat = 0 := by omega
        unfold Mandelbrot.itr
        rw [this]
        unfold Mandelbrot.loop
        decide
    rw [min_eq_left hle]
    omega

/-- C15 amended, at an instance: 255 iterations as in `main`, the pixel whose
constant is `0`. -/
theorem At_low_bits_witness :
    (255 : Int) ≤ 255 ∧
    ((Mandelbrot.mk ⟨0, 0⟩ ⟨1, 1⟩ ⟨⟨0, 0⟩, ⟨10, 10⟩⟩ 2 255).At exactArith 0 0 : Int) =
      (Mandelbrot.mk ⟨0, 0⟩ ⟨1, 1⟩ ⟨⟨0, 0⟩, ⟨10, 10⟩⟩ 2 255).itr exactArith 0 0 ∧
    ((Mandelbrot.mk ⟨0, 0⟩ ⟨1, 1⟩ ⟨⟨0, 0⟩, ⟨10, 10⟩⟩ 2 255).At exactArith 0 0 : Int) =
      min ((Mandelbrot.mk ⟨0, 0⟩ ⟨1, 1⟩ ⟨⟨0, 0⟩, ⟨10, 10⟩⟩ 2 255).itr exactArith 0 0) 255 :=
  ⟨by decide,
    (At_low_bits exactArith (Mandelbrot.mk ⟨0, 0⟩ ⟨1, 1⟩ ⟨⟨0, 0⟩, ⟨10, 10⟩⟩ 2 255) 0 0).2
      (by decide)⟩

/-- C16, on the code. In the configuration of `main` the palette has 255
colours, with the indices 0 to 254, and `MaxIterations` is 255: the colour
indices `0..MaxIterations` are `MaxIterations + 1 = 256` values, more than the
palette has colours, and 255 is not an index of the palette.  With the
`Bailout`, `MaxIterations` and `ImageSize` of `main`, a pixel whose constant is
`0` gets the colour index 255. -/
theorem main_palette_overflow {C : Type} (HSVToRGB : ℚ → ℚ → ℚ → C) :
    ∃ palette : List C,
      GenerateColorPalette HSVToRGB 255 = .ok palette ∧ palette.length = 255 ∧
      (mainFractal palette).MaxIterations = 255 ∧
      ¬ ((mainFractal palette).MaxIterations + 1 ≤ palette.length) ∧
      palette[255]? = none ∧
      (Mandelbrot.mk ⟨0, 0⟩ ⟨1, 1⟩ (mainFractal palette).ImageSize (mainFractal palette).Bailout
        (mainFractal palette).MaxIterations).At exactArith 0 0 = 255 := by
  refine ⟨(List.range 255).map (fun i : Nat => HSVToRGB (360 * ((i : ℚ) / 255)) (4 / 5) 1),
    rfl, by simp, ?_⟩
  have hlen : ((List.range 255).map
      (fun i : Nat => HSVToRGB (360 * ((i : ℚ) / 255)) (4 / 5) 1)).length = 255 := by simp
  have hM : (mainFractal ((List.range 255).map
      (fun i : Nat => HSVToRGB (360 * ((i : ℚ) / 255)) (4 / 5) 1))).MaxIterations = 255 := by
    simp [mainFractal]
  refine ⟨hM, ?_, ?_, ?_⟩
  · rw [hM, hlen]; decide
  · rw [List.getElem?_eq_none_iff, hlen]
  · rw [hM]
    have hc : (Mandelbrot.mk (F := ℚ) ⟨0, 0⟩ ⟨1, 1⟩ mainBounds 2 255).constant exactArith 0 0 =
        (0, 0) := by
      simp [Mandelbrot.constant, exactArith, mainBounds, Rect]
    have hi := itr_of_zero_constant (Mandelbrot.mk ⟨0, 0⟩ ⟨1, 1⟩ mainBounds 2 255) 0 0
      (by norm_num) (by decide) hc
    show (Mandelbrot.mk (F := ℚ) ⟨0, 0⟩ ⟨1, 1⟩ mainBounds 2 255).At exactArith 0 0 = 255
    rw [At_eq_uint8_itr, hi]
    decide

/-- C17. Over exact arithmetic, for a non-empty image rectangle, a window with
`Start ≤ End` and a pixel `(X, Y)` inside the rectangle, the constant
`c = (x0, y0)` of `Mandelbrot.At` is the affine image of the pixel,
`x0 = Start.X + (X - Min.X)/(Max.X - Min.X) * (End.X - Start.X)` and likewise
`y0`; `x0` lies in `[Start.X, End.X]` and `y0` in `[Start.Y, End.Y]`, and the
pixel at the `Min` corner is mapped to `Start`. -/
theorem constant_affine (m : Mandelbrot ℚ) (X Y : Int)
    (hne : ¬ m.ImageSize.Empty) (hx : m.Start.X ≤ m.End.X) (hy : m.Start.Y ≤ m.End.Y)
    (hp : (Point.mk X Y).In m.ImageSize) :
    m.constant exactArith X Y =
      (m.Start.X + ((X - m.ImageSize.Min.X : Int) : ℚ) /
          ((m.ImageSize.Max.X - m.ImageSize.Min.X : Int) : ℚ) * (m.End.X - m.Start.X),
       m.Start.Y + ((Y - m.ImageSize.Min.Y : Int) : ℚ) /
          ((m.ImageSize.Max.Y - m.ImageSize.Min.Y : Int) : ℚ) * (m.End.Y - m.Start.Y)) ∧
    m.Start.X ≤ (m.constant exactArith X Y).1 ∧ (m.constant exactArith X Y).1 ≤ m.End.X ∧
    m.Start.Y ≤ (m.constant exactArith X Y).2 ∧ (m.constant exactArith X Y).2 ≤ m.End.Y ∧
    m.constant exactArith m.ImageSize.Min.X m.ImageSize.Min.Y = (m.Start.X, m.Start.Y) := by
  unfold Rectangle.Empty at hne
  unfold Point.In at hp
  dsimp only at hp
  have hW : (0 : ℚ) < ((m.ImageSize.Max.X - m.ImageSize.Min.X : Int) : ℚ) := by
    exact_mod_cast (by omega : 0 < m.ImageSize.Max.X - m.ImageSize.Min.X)
  have hH : (0 : ℚ) < ((m.ImageSize.Max.Y - m.ImageSize.Min.Y : Int) : ℚ) := by
    exact_mod_cast (by omega : 0 < m.ImageSize.Max.Y - m.ImageSize.Min.Y)
  have hX0 : (0 : ℚ) ≤ ((X - m.ImageSize.Min.X : Int) : ℚ) := by
    exact_mod_cast (by omega : 0 ≤ X - m.ImageSize.Min.X)
  have hY0 : (0 : ℚ) ≤ ((Y - m.ImageSize.Min.Y : Int) : ℚ) := by
    exact_mod_cast (by omega : 0 ≤ Y - m.ImageSize.Min.Y)
  have hX1 : ((X - m.ImageSize.Min.X : Int) : ℚ) ≤
      ((m.ImageSize.Max.X - m.ImageSize.Min.X : Int) : ℚ) := by
    exact_mod_cast (by omega : X - m.ImageSize.Min.X ≤ m.ImageSize.Max.X - m.ImageSize.Min.X)
  have hY1 : ((Y - m.ImageSize.Min.Y : Int) : ℚ) ≤
      ((m.ImageSize.Max.Y - m.ImageSize.Min.Y : Int) : ℚ) := by
    exact_mod_cast (by omega : Y - m.ImageSize.Min.Y ≤ m.ImageSize.Max.Y - m.ImageSize.Min.Y)
  have rx0 := div_nonneg hX0 (le_of_lt hW)
  have rx1 := (div_le_one hW).2 hX1
  have ry0 := div_nonneg hY0 (le_of_lt hH)
  have ry1 := (div_le_one hH).2 hY1
  have hdx : 0 ≤ m.End.X - m.Start.X := by linarith
  have hdy : 0 ≤ m.End.Y - m.Start.Y := by linarith
  have e : m.constant exactArith X Y =
      (m.Start.X + ((X - m.ImageSize.Min.X : Int) : ℚ) /
          ((m.ImageSize.Max.X - m.ImageSize.Min.X : Int) : ℚ) * (m.End.X - m.Start.X),
       m.Start.Y + ((Y - m.ImageSize.Min.Y : Int) : ℚ) /
          ((m.ImageSize.Max.Y - m.ImageSize.Min.Y : Int) : ℚ) * (m.End.Y - m.Start.Y)) := by
    simp only [Mandelbrot.constant, exactArith, Prod.mk.injEq]
    constructor <;> ring
  refine ⟨e, ?_, ?_, ?_, ?_, ?_⟩
  · rw [e]
    have := mul_nonneg rx0 hdx
    dsimp only
    linarith
  · rw [e]
    have := mul_le_mul_of_nonneg_right rx1 hdx
    dsimp only
    linarith
  · rw [e]
    have := mul_nonneg ry0 hdy
    dsimp only
    linarith
  · rw [e]
    have := mul_le_mul_of_nonneg_right ry1 hdy
    dsimp only
    linarith
  · simp [Mandelbrot.constant, exactArith]

/-- C17, at an instance: the pixel `(5, 2)` of a 10 by 4 image and the window
from `(-2, -1)` to `(1, 1)`: `c = (-1/2, 0)`. -/
theorem constant_affine_witness :
    ¬ Rectangle.Empty ⟨⟨0, 0⟩, ⟨10, 4⟩⟩ ∧ (-2 : ℚ) ≤ 1 ∧ (-1 : ℚ) ≤ 1 ∧
    (Point.mk 5 2).In ⟨⟨0, 0⟩, ⟨10, 4⟩⟩ ∧
    (Mandelbrot.mk ⟨-2, -1⟩ ⟨1, 1⟩ ⟨⟨0, 0⟩, ⟨10, 4⟩⟩ 2 50).constant exactArith 5 2 =
      (-1 / 2, 0) ∧
    (Mandelbrot.mk ⟨-2, -1⟩ ⟨1, 1⟩ ⟨⟨0, 0⟩, ⟨10, 4⟩⟩ 2 50).constant exactArith 0 0 =
      (-2, -1) := by
  have h := constant_affine (Mandelbrot.mk ⟨-2, -1⟩ ⟨1, 1⟩ ⟨⟨0, 0⟩, ⟨10, 4⟩⟩ 2 50) 5 2
    (by decide) (by norm_num) (by norm_num) (by decide)
  refine ⟨by decide, by norm_num, by norm_num, by decide, ?_, h.2.2.2.2.2⟩
  rw [h.1]
  norm_num

/-- C18. For every pixel, window and image rectangle and every `MaxIterations`
from 1 to 255, `Mandelbrot.At` returns a value `≥ 1` whenever the first test of
the loop, `|z| < Bailout` on `z = 0`, passes; this holds for every arithmetic in
the place of `float64`, and over exact arithmetic the first test passes for
every `Bailout > 0`.  The colour index 0 is never produced. -/
theorem At_ge_one :
    (∀ (F : Type) (A : Arith F) (m : Mandelbrot F) (X Y : Int),
      A.absLt A.zero A.zero m.Bailout = true →
      1 ≤ m.MaxIterations → m.MaxIterations ≤ 255 → 1 ≤ m.At A X Y) ∧
    (∀ (m : Mandelbrot ℚ) (X Y : Int),
      0 < m.Bailout → 1 ≤ m.MaxIterations → m.MaxIterations ≤ 255 →
      1 ≤ m.At exactArith X Y ∧ m.At exactArith X Y ≠ 0) := by
  have key : ∀ (F : Type) (A : Arith F) (m : Mandelbrot F) (X Y : Int),
      A.absLt A.zero A.zero m.Bailout = true →
      1 ≤ m.MaxIterations → m.MaxIterations ≤ 255 → 1 ≤ m.At A X Y := by
    intro F A m X Y hB h1 h255
    have h := one_le_itr A m X Y hB h1
    have hle := itr_le A m X Y (by omega)
    have := uint8_of_le (by omega : 0 ≤ m.itr A X Y) (by omega)
    rw [At_eq_uint8_itr]
    omega
  refine ⟨key, ?_⟩
  intro m X Y hB h1 h255
  have := key ℚ exactArith m X Y (exactArith_absLt_zero hB) h1 h255
  exact ⟨this, by omega⟩

/-- C18, at an instance: the constant `c = 2+0i`, outside the bailout radius
from the first round on, still gets a colour index `≥ 1`. -/
theorem At_ge_one_witness :
    (0 : ℚ) < 2 ∧ (1 : Int) ≤ 50 ∧ (50 : Int) ≤ 255 ∧
    1 ≤ (Mandelbrot.mk ⟨2, 0⟩ ⟨3, 1⟩ ⟨⟨0, 0⟩, ⟨10, 10⟩⟩ 2 50).At exactArith 0 0 :=
  ⟨by norm_num, by decide, by decide,
    (At_ge_one.2 (Mandelbrot.mk ⟨2, 0⟩ ⟨3, 1⟩ ⟨⟨0, 0⟩, ⟨10, 10⟩⟩ 2 50) 0 0
      (by norm_num) (by decide) (by decide)).1⟩

end GoFractal
